import Mathlib

/-!
Verification development for the `kopperdb` storage engine
(`src/kopper.rs`): a log-structured, segment-based key-value store with an
in-memory index and a background compactor.

The engine state and its operations are shallowly embedded here:

* Rust `String` keys and values and file contents become `List Nat`
  (byte sequences); key equality in the source is byte-exact, and the record
  format `key ++ [0] ++ value ++ [0]` is byte-oriented, so UTF-8 validity
  plays no role in any property below.
* `HashMap<String, TableEntry>` becomes an association list `Table` with
  first-match lookup; `insert` returns the previous binding exactly as the
  Rust `HashMap::insert` does (modelled by reading `tLookup` first).
* `BTreeMap<FileIndex, FileEntry>` becomes an association list kept sorted
  by `fiLt` (insertion keeps the order), so `first_key_value` is the head
  and iteration order is ascending key order, as for the B-tree.
* A `File` handle is modelled by the byte content of the file together
  with its open mode: `readable` records whether the handle was opened
  with `.read(true)`.  The compactor's output segment is opened with only
  `.append(true).create(true)` (kopper.rs lines 247-252), a write-only
  handle: a `read_exact` of a nonempty buffer through (a clone of) it
  fails with an I/O error, and `read_to_end` on it panics through the
  `unwrap` at line 222.  Appending is list append.  `u32`/`usize` arithmetic is modelled on `Nat`; the claims
  under study do not concern integer overflow (a u32 segment-counter
  overflow in the source would abort a debug build long before it could
  matter here), and `usize` subtraction in `compact` is modelled by
  truncated `Nat` subtraction.
* A Rust `unwrap`/panic aborts the process, so an operation that would
  panic is modelled as returning `none`: no further state is reachable
  through it.  An `IoError` returned by the OS is modelled where a claim
  needs it (`Kopper.writeIoFail`).
-/

/-- Two-part segment name `{base}_{index}` (source: `struct FileIndex`). -/
structure FileIndex where
  base : Nat
  index : Nat
deriving DecidableEq, Repr

/-- Lexicographic order on `(base, index)`, the `Ord` derived for the Rust
`FileIndex` and used by the `BTreeMap`. -/
def fiLt (a b : FileIndex) : Prop :=
  a.base < b.base ∨ (a.base = b.base ∧ a.index < b.index)

instance : DecidableRel fiLt := fun a b => by
  unfold fiLt; infer_instance

/-- Index entry `(file_index, offset, len)` (source: `struct TableEntry`).
`offset` is the byte offset of the first value byte in the segment file,
`len` the number of value bytes. -/
structure TableEntry where
  file_index : FileIndex
  offset : Nat
  len : Nat
deriving DecidableEq, Repr

/-- Per-segment entry (source: `struct FileEntry`); the `File` handle is
modelled by the byte content of the file plus its open mode: `readable`
is true when the handle was opened with `.read(true)` (recovery, the
initial segment, and segment rolls), false for the compactor's output
segment, which is opened append-only. -/
structure FileEntry where
  content : List Nat
  unused_count : Nat
  readable : Bool
deriving DecidableEq, Repr

/-- The in-memory index `HashMap<String, TableEntry>` as an association
list with first-match lookup. -/
abbrev Table := List (List Nat × TableEntry)

/-- `HashMap::get`. -/
def tLookup (t : Table) (k : List Nat) : Option TableEntry :=
  match t with
  | [] => none
  | (k', e) :: rest => if k' = k then some e else tLookup rest k

/-- `HashMap::insert` (the previous binding, which the Rust `insert`
returns, is read off with `tLookup` before inserting). -/
def tInsert (t : Table) (k : List Nat) (e : TableEntry) : Table :=
  (k, e) :: t.filter (fun p => p.1 ≠ k)

/-- The segment table `BTreeMap<FileIndex, FileEntry>` as a sorted
association list. -/
abbrev Files := List (FileIndex × FileEntry)

/-- `BTreeMap::get`. -/
def bGet (l : Files) (k : FileIndex) : Option FileEntry :=
  match l with
  | [] => none
  | (k', v) :: rest => if k' = k then some v else bGet rest k

/-- `BTreeMap::insert`, keeping the list sorted by `fiLt` and replacing an
existing binding. -/
def bInsert (l : Files) (k : FileIndex) (v : FileEntry) : Files :=
  match l with
  | [] => [(k, v)]
  | (k', v') :: rest =>
    if k = k' then (k, v) :: rest
    else if fiLt k k' then (k, v) :: (k', v') :: rest
    else (k', v') :: bInsert rest k v

/-- In-place mutation through `BTreeMap::get_mut` (no insertion if the key
is absent). -/
def bUpdate (l : Files) (k : FileIndex) (f : FileEntry → FileEntry) : Files :=
  l.map (fun p => if p.1 = k then (p.1, f p.2) else p)

/-- `BTreeMap::remove`. -/
def bRemove (l : Files) (k : FileIndex) : Files :=
  l.filter (fun p => p.1 ≠ k)

/-- The state behind the single lock (source: `struct SharedState`). -/
structure KState where
  table : Table
  files : Files
  offset : Nat
  current_file_index : FileIndex
  size : Nat
deriving DecidableEq, Repr

/-- Scan for the next `0` byte at position ≥ `p`; the absolute index is
carried so the result is an offset into the whole buffer.  Helper for the
byte scans in `KeyValueIterator::next`. -/
def findZeroFrom : List Nat → Nat → Option Nat
  | [], _ => none
  | b :: rest, p => if b = 0 then some p else findZeroFrom rest (p + 1)

/-- First index `i ≥ p` with `buf[i] = 0`, as scanned by
`KeyValueIterator::next`. -/
def findZero (buf : List Nat) (p : Nat) : Option Nat :=
  findZeroFrom (buf.drop p) p

/-- Byte range `buf[a..b]`. -/
def byteSlice (buf : List Nat) (a b : Nat) : List Nat :=
  (buf.drop a).take (b - a)

/-- One step of `KeyValueIterator::next` from pointer `p`: find the key
terminator, then the value terminator; yield
`(key, raw record bytes, value offset, new pointer)`.  The raw record
is `buf[p .. j+1]`, i.e. `key ++ [0] ++ value ++ [0]` — exactly the
source's `value = &self.buf[self.pointer..byte + 1]`.  Yields `none` when
the key is empty or no complete record remains, as the source's
`key.is_empty() || value.is_empty()` check does. -/
def kvNext (buf : List Nat) (p : Nat) : Option (List Nat × List Nat × Nat × Nat) :=
  match findZero buf p with
  | none => none
  | some i =>
    match findZero buf (i + 1) with
    | none => none
    | some j =>
      let key := byteSlice buf p i
      let raw := byteSlice buf p (j + 1)
      if key = [] then none else some (key, raw, i + 1, j + 1)

/-- Full run of `KeyValueIterator` from pointer `p`, returning the
`(key, raw record, value offset)` triples in order.  Fuelled recursion: each
step advances the pointer by at least 2, so `buf.length + 1` steps always
suffice (`kvIter_unfold` below recovers the self-referential equation). -/
def kvIterAux (buf : List Nat) : Nat → Nat → List (List Nat × List Nat × Nat)
  | 0, _ => []
  | fuel + 1, p =>
    match kvNext buf p with
    | none => []
    | some (k, raw, voff, p') => (k, raw, voff) :: kvIterAux buf fuel p'

/-- `KeyValueIterator::from(buf)` iterated to exhaustion from pointer `p`. -/
def kvIter (buf : List Nat) (p : Nat) : List (List Nat × List Nat × Nat) :=
  kvIterAux buf (buf.length + 1) p

/-- The `unused_count += 1` mutation of `Kopper::write` step 1. -/
def bumpUnused (fe : FileEntry) : FileEntry :=
  { fe with unused_count := fe.unused_count + 1 }

/-- Append `bytes` to a segment file (the `write_all` of `Kopper::write`). -/
def appendContent (bytes : List Nat) (fe : FileEntry) : FileEntry :=
  { fe with content := fe.content ++ bytes }

/-- Record bytes `key ++ [0] ++ value ++ [0]` (spec §3 "Record"). -/
def recBytes (q : List Nat × List Nat) : List Nat := q.1 ++ [0] ++ q.2 ++ [0]

/-- Concatenation of records: the content of a well-formed segment file. -/
def SegOf : List (List Nat × List Nat) → List Nat
  | [] => []
  | q :: rs => recBytes q ++ SegOf rs

/-- The `(key, raw record, value offset)` triples of a record list laid out
from byte position `p` — the intended output of `KeyValueIterator`. -/
def tuples : List (List Nat × List Nat) → Nat → List (List Nat × List Nat × Nat)
  | [], _ => []
  | q :: rs, p => (q.1, recBytes q, p + q.1.length + 1) :: tuples rs (p + (recBytes q).length)

/-- The record `(k, v)` occurs in the record list `rs` with its value
starting at byte `voff`, when `rs` is laid out from byte position `base`. -/
def RecAtFrom (rs : List (List Nat × List Nat)) (base : Nat) (k : List Nat)
    (voff : Nat) (v : List Nat) : Prop :=
  ∃ pre post, rs = pre ++ (k, v) :: post ∧ voff = base + (SegOf pre).length + k.length + 1

/-- Number of records of a segment whose key is written again later in the
same segment (the true in-segment superseded count, spec §3 `dead_count`). -/
def supersededCount : List (List Nat × List Nat) → Nat
  | [] => 0
  | q :: rs => (if q.1 ∈ rs.map Prod.fst then 1 else 0) + supersededCount rs

/-- Spec §4.3 input contract: nonempty byte sequences containing no zero
bytes. -/
def ValidKV (k v : List Nat) : Prop :=
  k ≠ [] ∧ v ≠ [] ∧ ¬ 0 ∈ k ∧ ¬ 0 ∈ v

instance (k v : List Nat) : Decidable (ValidKV k v) := by
  unfold ValidKV; infer_instance

/-- `Kopper::cut_off_segment`: bump to `(base+1, 0)`, open the new segment
file (read+append+create, so an already-existing on-disk file would keep
its bytes), insert it with `unused_count = 0`, reset the append cursor. -/
def Kopper.cut_off_segment (s : KState) : KState :=
  let newIdx : FileIndex := ⟨s.current_file_index.base + 1, 0⟩
  let existing := match bGet s.files newIdx with
    | some fe => fe.content
    | none => []
  { s with current_file_index := newIdx,
           files := bInsert s.files newIdx ⟨existing, 0, true⟩,
           offset := 0 }

/-- Steps 1-2 of `Kopper::write` after the roll check: upsert the index
entry (the previous binding, if any, bumps its segment's `unused_count`),
then append `key ++ [0] ++ value ++ [0]` to the current segment and advance
`offset` and `size`.  `none` models the `unwrap` panics on an absent
segment-table entry. -/
def Kopper.writeBody (s1 : KState) (key value : List Nat) : Option KState :=
  let entry : TableEntry :=
    ⟨s1.current_file_index, s1.offset + key.length + 1, value.length⟩
  let prev := tLookup s1.table key
  let s2 : KState := { s1 with table := tInsert s1.table key entry }
  let os3 : Option KState :=
    match prev with
    | some pe =>
      match bGet s2.files pe.file_index with
      | none => none
      | some _ => some { s2 with files := bUpdate s2.files pe.file_index bumpUnused }
    | none => some s2
  match os3 with
  | none => none
  | some s3 =>
    let bytes := key ++ [0] ++ value ++ [0]
    match bGet s3.files s3.current_file_index with
    | none => none
    | some _ =>
      some { s3 with
        files := bUpdate s3.files s3.current_file_index (appendContent bytes),
        offset := s3.offset + bytes.length,
        size := s3.size + bytes.length }

/-- `Kopper::write`: roll the segment first when
`key_len + value_len + 2 + offset > segment_size`, then run the body.  The
source returns `Ok(state.size)`; the new size is the `size` field of the
returned state. -/
def Kopper.write (segment_size : Nat) (s : KState) (key value : List Nat) : Option KState :=
  Kopper.writeBody
    (if key.length + value.length + 2 + s.offset > segment_size
     then Kopper.cut_off_segment s else s)
    key value

/-- `Kopper::write` when the disk append (`write_all`, line 165) returns an
I/O error that the `?` operator propagates: everything textually before it
— the roll, the index upsert and the `unused_count` bump — has already
executed, the cursor/size advance has not, and no bytes reached the file.
The returned state is the in-memory state observable after the error. -/
def Kopper.writeIoFail (segment_size : Nat) (s : KState) (key value : List Nat) : Option KState :=
  let s1 := if key.length + value.length + 2 + s.offset > segment_size
            then Kopper.cut_off_segment s else s
  let entry : TableEntry :=
    ⟨s1.current_file_index, s1.offset + key.length + 1, value.length⟩
  let prev := tLookup s1.table key
  let s2 : KState := { s1 with table := tInsert s1.table key entry }
  let os3 : Option KState :=
    match prev with
    | some pe =>
      match bGet s2.files pe.file_index with
      | none => none
      | some _ => some { s2 with files := bUpdate s2.files pe.file_index bumpUnused }
    | none => some s2
  match os3 with
  | none => none
  | some s3 =>
    match bGet s3.files s3.current_file_index with
    | none => none
    | some _ => some s3

/-- `Kopper::read`: index lookup (`none` models `KeyDoesNotExist`), segment
lookup (`unwrap`), then `seek` + `read_exact` of the recorded byte range.
`read_exact` of an empty buffer performs no read and succeeds; a nonempty
read fails with an I/O error (`none`) when the cloned handle is the
compactor's write-only output handle, or when the range runs past end of
file. -/
def Kopper.read (s : KState) (key : List Nat) : Option (List Nat) :=
  match tLookup s.table key with
  | none => none
  | some e =>
    match bGet s.files e.file_index with
    | none => none
    | some fe =>
      if e.len = 0 then some []
      else if fe.readable then
        (if e.offset + e.len ≤ fe.content.length
         then some (byteSlice fe.content e.offset (e.offset + e.len))
         else none)
      else none

/-- Victim selection in `compact`: walk the segment table in ascending key
order keeping the entry with strictly greater `unused_count`, starting from
`first_key_value` (so the smallest id wins ties). -/
def selectVictim : Files → FileIndex × FileEntry → FileIndex × FileEntry
  | [], best => best
  | e :: rest, best =>
    selectVictim rest (if e.2.unused_count > best.2.unused_count then e else best)

/-- The record loop of `compact` (lines 230-243): for each iterator tuple,
look the key up (`none` models the `unwrap` panic); when the entry still
points at the victim record, repoint it at the output segment and append
the raw record bytes to the output buffer.  Fuelled like `kvIterAux`. -/
def compactLoopAux (vi ci : FileIndex) (buffer : List Nat) :
    Nat → Nat → Table → List Nat → Option (Table × List Nat)
  | 0, _, table, newc => some (table, newc)
  | fuel + 1, p, table, newc =>
    match kvNext buffer p with
    | none => some (table, newc)
    | some (key, raw, voff, p') =>
      match tLookup table key with
      | none => none
      | some e =>
        if e.file_index = vi ∧ e.offset = voff then
          compactLoopAux vi ci buffer fuel p'
            (tInsert table key ⟨ci, newc.length + key.length + 1, raw.length - key.length - 2⟩)
            (newc ++ raw)
        else compactLoopAux vi ci buffer fuel p' table newc

/-- The record loop of `compact` run over the whole victim buffer. -/
def compactLoop (vi ci : FileIndex) (buffer : List Nat) (table : Table) :
    Option (Table × List Nat) :=
  compactLoopAux vi ci buffer (buffer.length + 1) 0 table []

/-- One `compact` pass (the body of the compactor worker): pick the victim
(`none` models the `first_key_value().unwrap()` panic on an empty table),
read it end to end — `read_to_end(..).unwrap()` (line 222) panics (`none`)
when the cloned victim handle is a write-only compaction output — rewrite
the live records, then — if the output buffer is nonempty — create the
output segment `(base, index+1)` (append+create only, hence a write-only
handle, and an already-existing on-disk file would keep its bytes) and
account its size; finally subtract the victim length and remove the
victim. -/
def Kopper.compact (s : KState) : Option KState :=
  match s.files with
  | [] => none
  | f0 :: rest =>
    let victim := selectVictim (f0 :: rest) f0
    if victim.2.readable then
      let file_index := victim.1
      let buffer := victim.2.content
      let compacted_file_index : FileIndex := ⟨file_index.base, file_index.index + 1⟩
      match compactLoop file_index compacted_file_index buffer s.table with
      | none => none
      | some (table', new_file_contents) =>
        let s1 : KState := { s with table := table' }
        let s2 : KState :=
          if new_file_contents = [] then s1
          else
            let existing := match bGet s1.files compacted_file_index with
              | some fe => fe.content
              | none => []
            { s1 with
              files := bInsert s1.files compacted_file_index
                ⟨existing ++ new_file_contents, 0, false⟩,
              size := s1.size + new_file_contents.length }
        some { s2 with size := s2.size - buffer.length,
                       files := bRemove s2.files file_index }
    else none

/-- The two-state machine of `SharedState::recover_file` (source enum
`CurrentlyReading`). -/
inductive Reading where
  | key
  | value
deriving DecidableEq, Repr

/-- Parser state of `SharedState::recover_file`: the table being built, the
key bytes buffered so far, the state-machine state, and the file offset of
the current value. -/
structure RecState where
  table : Table
  keyAcc : List Nat
  reading : Reading
  value_file_offset : Nat
deriving DecidableEq, Repr

/-- One byte of the `recover_file` scan at absolute file position `pos`: a
zero byte either terminates the key (recording where the value starts) or
terminates the value (inserting the completed entry); other bytes extend
the buffered key when reading a key. -/
def SharedState.recoverByte (fi : FileIndex) (st : RecState) (pos : Nat) (b : Nat) : RecState :=
  if b = 0 then
    match st.reading with
    | .key => { st with value_file_offset := pos + 1, reading := .value }
    | .value =>
      { table := tInsert st.table st.keyAcc
          ⟨fi, st.value_file_offset, pos - st.value_file_offset⟩,
        keyAcc := [], reading := .key, value_file_offset := st.value_file_offset }
  else
    match st.reading with
    | .key => { st with keyAcc := st.keyAcc ++ [b] }
    | .value => st

/-- The `recover_file` scan over the remaining bytes, `pos` being the
absolute file position of the first of them. -/
def SharedState.recoverGo (fi : FileIndex) : RecState → Nat → List Nat → RecState
  | st, _, [] => st
  | st, pos, b :: bs => SharedState.recoverGo fi (SharedState.recoverByte fi st pos b) (pos + 1) bs

/-- `SharedState::recover_file`: scan a whole segment file, returning the
extended table and the number of bytes read.  The source reads the file in
2048-byte blocks, pushing any incomplete key suffix at each block end; the
parser state (mode, buffered key, value offset) carries across block
boundaries unchanged, so the block size is unobservable and the scan is
modelled byte by byte. -/
def SharedState.recover_file (table : Table) (fi : FileIndex) (content : List Nat) : Table × Nat :=
  ((SharedState.recoverGo fi ⟨table, [], .key, 0⟩ 0 content).table, content.length)

/-- One iteration of the recovery loop of `SharedState::create`: recover
one segment file into the table, account its length, insert it into the
segment table with `unused_count = 0`. -/
def SharedState.createStep (s : KState) (p : FileIndex × List Nat) : KState :=
  let r := SharedState.recover_file s.table p.1 p.2
  { s with table := r.1, size := s.size + r.2,
           files := bInsert s.files p.1 ⟨p.2, 0, true⟩ }

/-- `SharedState::create`: fold `recover_file` over the directory listing
(a list of parsed segment names with their file contents, in the order
`fs::read_dir` yields them — the source imposes no order), create segment
`(0,0)` if the directory was empty, then point `current_file_index` at the
first (minimum) key of the segment table and set `offset` to that file's
length. -/
def SharedState.create (listing : List (FileIndex × List Nat)) : KState :=
  let s0 : KState := ⟨[], [], 0, ⟨0, 0⟩, 0⟩
  let s1 := listing.foldl SharedState.createStep s0
  let s2 := if s1.files = [] then { s1 with files := bInsert s1.files ⟨0, 0⟩ ⟨[], 0, true⟩ } else s1
  match s2.files with
  | [] => s2
  | (fi, fe) :: _ => { s2 with current_file_index := fi, offset := fe.content.length }

/-- The state of a freshly created store on an empty directory. -/
def initState : KState := SharedState.create []

/-- A client-visible engine operation: a write, or one compaction pass of
the background worker. -/
inductive Op where
  | write (key value : List Nat)
  | compact
deriving DecidableEq, Repr

/-- Spec §4.3: an operation is valid when any write in it respects the
input contract. -/
def ValidOp : Op → Prop
  | .write k v => ValidKV k v
  | .compact => True

instance : (op : Op) → Decidable (ValidOp op)
  | .write k v => inferInstanceAs (Decidable (ValidKV k v))
  | .compact => .isTrue trivial

/-- All operations of a trace are valid. -/
def ValidOps (ops : List Op) : Prop := ∀ op ∈ ops, ValidOp op

instance (ops : List Op) : Decidable (ValidOps ops) :=
  inferInstanceAs (Decidable (∀ op ∈ ops, ValidOp op))

/-- One engine step. -/
def Kopper.step (segment_size : Nat) (s : KState) : Op → Option KState
  | .write k v => Kopper.write segment_size s k v
  | .compact => Kopper.compact s

/-- A sequential trace of engine steps; `none` as soon as a step fails. -/
def Kopper.exec (segment_size : Nat) (s : KState) : List Op → Option KState
  | [] => some s
  | op :: ops =>
    match Kopper.step segment_size s op with
    | none => none
    | some s' => Kopper.exec segment_size s' ops

/-- The value of the last write to `k` in a trace, if any: a write among
the later operations wins; otherwise the first operation decides. -/
def lastWrite : List Op → List Nat → Option (List Nat)
  | [], _ => none
  | op :: ops, k =>
    match lastWrite ops k, op with
    | some v, _ => some v
    | none, .write k' v => if k' = k then some v else none
    | none, .compact => none

/-- Abstract effect of one operation on the ideal key-value map. -/
def absStep (M : List Nat → Option (List Nat)) : Op → (List Nat → Option (List Nat))
  | .write k v => fun k' => if k' = k then some v else M k'
  | .compact => M

/-- Abstract effect of a trace on the ideal key-value map. -/
def absRun (M : List Nat → Option (List Nat)) (ops : List Op) : List Nat → Option (List Nat) :=
  ops.foldl absStep M

/-- The reachable-state invariant of the engine, relative to a ghost record
layout `R` (the record list of every segment file) and the ideal key-value
map `M`.  `files_ok`: each open segment is a concatenation of valid
records; `table_ok`: each index entry points into a present segment at the
value of one of its records, which is the ideal value of the key;
`keys_ok`: each record key of each open segment is in the index; `cur_ok`:
the append cursor equals the length of the current segment; `cur_idx`,
`base_ok`, `ubase`: segment-naming facts (rolls make `(base+1, 0)`,
compaction makes `(base, index+1)`, at most one live segment per base). -/
structure KInv (s : KState) (R : FileIndex → List (List Nat × List Nat))
    (M : List Nat → Option (List Nat)) : Prop where
  sorted : List.Pairwise (fun a b => fiLt a.1 b.1) s.files
  files_ok : ∀ fi fe, bGet s.files fi = some fe →
    fe.content = SegOf (R fi) ∧ ∀ q ∈ R fi, ValidKV q.1 q.2
  table_ok : ∀ k e, tLookup s.table k = some e → ∃ fe v,
    bGet s.files e.file_index = some fe ∧ M k = some v ∧ e.len = v.length ∧
    RecAtFrom (R e.file_index) 0 k e.offset v
  dom_ok : ∀ k, tLookup s.table k = none → M k = none
  keys_ok : ∀ fi fe, bGet s.files fi = some fe → ∀ q ∈ R fi, tLookup s.table q.1 ≠ none
  cur_ok : ∀ fe, bGet s.files s.current_file_index = some fe → fe.content.length = s.offset
  cur_idx : s.current_file_index.index = 0
  base_ok : ∀ fi fe, bGet s.files fi = some fe → fi.base ≤ s.current_file_index.base
  ubase : ∀ fi fi' fe fe', bGet s.files fi = some fe → bGet s.files fi' = some fe' →
    fi.base = fi'.base → fi = fi'

theorem tLookup_nil (k : List Nat) : tLookup [] k = none := rfl

theorem tLookup_cons (p : List Nat × TableEntry) (rest : Table) (k : List Nat) :
    tLookup (p :: rest) k = if p.1 = k then some p.2 else tLookup rest k := by
  rcases p with ⟨a, b⟩; rfl

theorem bGet_nil (k : FileIndex) : bGet [] k = none := rfl

theorem bGet_cons (p : FileIndex × FileEntry) (rest : Files) (k : FileIndex) :
    bGet (p :: rest) k = if p.1 = k then some p.2 else bGet rest k := by
  rcases p with ⟨a, b⟩; rfl

theorem tLookup_filter_ne (t : Table) (k k' : List Nat) (h : k' ≠ k) :
    tLookup (t.filter (fun p => p.1 ≠ k)) k' = tLookup t k' := by
  induction t with
  | nil => rfl
  | cons p rest ih =>
    rw [List.filter_cons]
    by_cases hp : p.1 = k
    · rw [if_neg (by simp [hp]), ih, tLookup_cons,
        if_neg (show ¬ p.1 = k' by intro hk; exact h (by rw [← hk, hp]))]
    · rw [if_pos (by simp [hp]), tLookup_cons, tLookup_cons, ih]

theorem tLookup_tInsert (t : Table) (k : List Nat) (e : TableEntry) (k' : List Nat) :
    tLookup (tInsert t k e) k' = if k = k' then some e else tLookup t k' := by
  show tLookup ((k, e) :: t.filter (fun p => p.1 ≠ k)) k' = _
  rw [tLookup_cons]
  by_cases hk : k = k'
  · rw [if_pos hk, if_pos hk]
  · rw [if_neg hk, if_neg hk]
    exact tLookup_filter_ne t k k' (fun h => hk h.symm)

theorem bGet_bInsert (l : Files) (k : FileIndex) (v : FileEntry) (k' : FileIndex) :
    bGet (bInsert l k v) k' = if k = k' then some v else bGet l k' := by
  induction l with
  | nil =>
    show bGet [(k, v)] k' = _
    rw [bGet_cons]
  | cons p rest ih =>
    show bGet (if k = p.1 then (k, v) :: rest
      else if fiLt k p.1 then (k, v) :: p :: rest
      else p :: bInsert rest k v) k' = _
    by_cases h1 : k = p.1
    · rw [if_pos h1, bGet_cons, bGet_cons]
      by_cases hk : k = k'
      · rw [if_pos hk, if_pos hk]
      · rw [if_neg hk, if_neg hk, if_neg (h1 ▸ hk)]
    · rw [if_neg h1]
      by_cases h2 : fiLt k p.1
      · rw [if_pos h2, bGet_cons]
      · rw [if_neg h2, bGet_cons, bGet_cons]
        by_cases h3 : p.1 = k'
        · rw [if_pos h3, if_pos h3, if_neg (fun hk => h1 (hk.trans h3.symm))]
        · rw [if_neg h3, if_neg h3, ih]

theorem bGet_bUpdate (l : Files) (k : FileIndex) (f : FileEntry → FileEntry) (k' : FileIndex) :
    bGet (bUpdate l k f) k' = if k = k' then (bGet l k').map f else bGet l k' := by
  induction l with
  | nil =>
    show bGet [] k' = _
    rw [bGet_nil]
    by_cases hk : k = k' <;> simp [hk, bGet_nil]
  | cons p rest ih =>
    show bGet ((if p.1 = k then (p.1, f p.2) else p) :: bUpdate rest k f) k' = _
    rw [bGet_cons, bGet_cons]
    by_cases h1 : p.1 = k
    · rw [if_pos h1]
      by_cases h2 : k = k'
      · rw [if_pos (show ((p.1, f p.2) : FileIndex × FileEntry).1 = k' from h2 ▸ h1),
          if_pos h2, if_pos (h1.trans h2)]
        simp
      · rw [if_neg (show ¬ ((p.1, f p.2) : FileIndex × FileEntry).1 = k' from
          fun h => h2 (h1 ▸ h)), if_neg h2, if_neg (fun h => h2 (h1 ▸ h)), ih, if_neg h2]
    · rw [if_neg h1]
      by_cases h3 : p.1 = k'
      · rw [if_pos h3, if_pos h3, if_neg (fun h : k = k' => h1 (h3 ▸ h.symm ▸ rfl))]
      · rw [if_neg h3, if_neg h3, ih]

theorem bGet_bRemove (l : Files) (k k' : FileIndex) :
    bGet (bRemove l k) k' = if k = k' then none else bGet l k' := by
  induction l with
  | nil =>
    show bGet [] k' = _
    by_cases hk : k = k' <;> simp [hk, bGet_nil]
  | cons p rest ih =>
    unfold bRemove
    rw [List.filter_cons]
    by_cases h1 : p.1 = k
    · rw [if_neg (by simp [h1])]
      unfold bRemove at ih
      rw [ih]
      by_cases h2 : k = k'
      · rw [if_pos h2, if_pos h2]
      · rw [if_neg h2, if_neg h2, bGet_cons, if_neg (fun h => h2 (h1 ▸ h))]
    · rw [if_pos (by simp [h1]), bGet_cons, bGet_cons]
      by_cases h3 : p.1 = k'
      · rw [if_pos h3, if_neg (fun h : k = k' => h1 (h ▸ h3 ▸ rfl)), if_pos h3]
      · rw [if_neg h3, if_neg h3]
        unfold bRemove at ih
        rw [ih]

theorem fiLt_trans {a b c : FileIndex} (h1 : fiLt a b) (h2 : fiLt b c) : fiLt a c := by
  unfold fiLt at h1 h2 ⊢
  rcases h1 with h1 | ⟨h1, h1'⟩ <;> rcases h2 with h2 | ⟨h2, h2'⟩
  · exact Or.inl (h1.trans h2)
  · exact Or.inl (h2 ▸ h1)
  · exact Or.inl (h1 ▸ h2)
  · exact Or.inr ⟨h1.trans h2, h1'.trans h2'⟩

theorem fiLt_irrefl (a : FileIndex) : ¬ fiLt a a := by
  unfold fiLt
  rintro (h | ⟨-, h⟩) <;> exact Nat.lt_irrefl _ h

theorem fiLt_trichotomy (a b : FileIndex) : fiLt a b ∨ a = b ∨ fiLt b a := by
  unfold fiLt
  rcases Nat.lt_trichotomy a.base b.base with h | h | h
  · exact Or.inl (Or.inl h)
  · rcases Nat.lt_trichotomy a.index b.index with h' | h' | h'
    · exact Or.inl (Or.inr ⟨h, h'⟩)
    · refine Or.inr (Or.inl ?_)
      cases a; cases b; simp_all
    · exact Or.inr (Or.inr (Or.inr ⟨h.symm, h'⟩))
  · exact Or.inr (Or.inr (Or.inl h))

theorem mem_bInsert (l : Files) (k : FileIndex) (v : FileEntry) (q : FileIndex × FileEntry)
    (h : q ∈ bInsert l k v) : q = (k, v) ∨ q ∈ l := by
  induction l with
  | nil =>
    unfold bInsert at h
    exact Or.inl (List.mem_singleton.mp h)
  | cons p rest ih =>
    unfold bInsert at h
    by_cases h1 : k = p.1
    · rw [if_pos h1] at h
      rcases List.mem_cons.mp h with h | h
      · exact Or.inl h
      · exact Or.inr (List.mem_cons_of_mem _ h)
    · rw [if_neg h1] at h
      by_cases h2 : fiLt k p.1
      · rw [if_pos h2] at h
        rcases List.mem_cons.mp h with h | h
        · exact Or.inl h
        · exact Or.inr h
      · rw [if_neg h2] at h
        rcases List.mem_cons.mp h with h | h
        · exact Or.inr (h ▸ List.mem_cons_self _ _)
        · rcases ih h with h' | h'
          · exact Or.inl h'
          · exact Or.inr (List.mem_cons_of_mem _ h')

theorem pairwise_bInsert (l : Files) (k : FileIndex) (v : FileEntry)
    (h : List.Pairwise (fun a b => fiLt a.1 b.1) l) :
    List.Pairwise (fun a b => fiLt a.1 b.1) (bInsert l k v) := by
  induction l with
  | nil => exact List.pairwise_singleton _ _
  | cons p rest ih =>
    rcases List.pairwise_cons.mp h with ⟨hp, hrest⟩
    unfold bInsert
    by_cases h1 : k = p.1
    · rw [if_pos h1]
      exact List.pairwise_cons.mpr ⟨fun q hq => h1 ▸ hp q hq, hrest⟩
    · rw [if_neg h1]
      by_cases h2 : fiLt k p.1
      · rw [if_pos h2]
        refine List.pairwise_cons.mpr ⟨?_, h⟩
        intro q hq
        rcases List.mem_cons.mp hq with rfl | hq'
        · exact h2
        · exact fiLt_trans h2 (hp q hq')
      · rw [if_neg h2]
        refine List.pairwise_cons.mpr ⟨?_, ih hrest⟩
        intro q hq
        rcases mem_bInsert rest k v q hq with rfl | hq'
        · rcases fiLt_trichotomy k p.1 with h3 | h3 | h3
          · exact absurd h3 h2
          · exact absurd h3 h1
          · exact h3
        · exact hp q hq'

theorem pairwise_bUpdate (l : Files) (k : FileIndex) (f : FileEntry → FileEntry)
    (h : List.Pairwise (fun a b => fiLt a.1 b.1) l) :
    List.Pairwise (fun a b => fiLt a.1 b.1) (bUpdate l k f) := by
  unfold bUpdate
  rw [List.pairwise_map]
  refine h.imp_of_mem ?_
  intro a b _ _ hab
  have h1 : ((if a.1 = k then (a.1, f a.2) else a) : FileIndex × FileEntry).1 = a.1 := by
    by_cases ha : a.1 = k <;> simp [ha]
  have h2 : ((if b.1 = k then (b.1, f b.2) else b) : FileIndex × FileEntry).1 = b.1 := by
    by_cases hb : b.1 = k <;> simp [hb]
  show fiLt ((if a.1 = k then (a.1, f a.2) else a) : FileIndex × FileEntry).1
    ((if b.1 = k then (b.1, f b.2) else b) : FileIndex × FileEntry).1
  rw [h1, h2]
  exact hab

theorem pairwise_bRemove (l : Files) (k : FileIndex)
    (h : List.Pairwise (fun a b => fiLt a.1 b.1) l) :
    List.Pairwise (fun a b => fiLt a.1 b.1) (bRemove l k) := by
  exact h.sublist (List.filter_sublist l)

theorem bGet_of_mem (l : Files) (q : FileIndex × FileEntry)
    (hs : List.Pairwise (fun a b => fiLt a.1 b.1) l) (h : q ∈ l) :
    bGet l q.1 = some q.2 := by
  induction l with
  | nil => cases h
  | cons p rest ih =>
    rcases List.pairwise_cons.mp hs with ⟨hp, hrest⟩
    rcases List.mem_cons.mp h with h | h
    · rw [h, bGet_cons, if_pos rfl]
    · rw [bGet_cons]
      by_cases h1 : p.1 = q.1
      · exact absurd (h1 ▸ hp q h) (fiLt_irrefl _)
      · rw [if_neg h1]
        exact ih hrest h

theorem selectVictim_mem (l : Files) (best : FileIndex × FileEntry) :
    selectVictim l best = best ∨ selectVictim l best ∈ l := by
  induction l generalizing best with
  | nil => exact Or.inl rfl
  | cons p rest ih =>
    have heq : selectVictim (p :: rest) best
        = selectVictim rest (if p.2.unused_count > best.2.unused_count then p else best) := rfl
    rw [heq]
    by_cases h : p.2.unused_count > best.2.unused_count
    · rw [if_pos h]
      rcases ih p with h' | h'
      · exact Or.inr (by rw [h']; exact List.mem_cons_self _ _)
      · exact Or.inr (List.mem_cons_of_mem _ h')
    · rw [if_neg h]
      rcases ih best with h' | h'
      · exact Or.inl h'
      · exact Or.inr (List.mem_cons_of_mem _ h')

theorem recBytes_length (q : List Nat × List Nat) :
    (recBytes q).length = q.1.length + q.2.length + 2 := by
  unfold recBytes
  simp
  omega

theorem recBytes_ne_nil (q : List Nat × List Nat) : recBytes q ≠ [] := by
  unfold recBytes
  simp

theorem SegOf_cons (q : List Nat × List Nat) (rs : List (List Nat × List Nat)) :
    SegOf (q :: rs) = recBytes q ++ SegOf rs := rfl

theorem SegOf_append (xs ys : List (List Nat × List Nat)) :
    SegOf (xs ++ ys) = SegOf xs ++ SegOf ys := by
  induction xs with
  | nil => rfl
  | cons q rest ih => simp [SegOf_cons, ih]

theorem SegOf_eq_nil (rs : List (List Nat × List Nat)) : SegOf rs = [] ↔ rs = [] := by
  cases rs with
  | nil => simp [SegOf]
  | cons q rest =>
    simp only [SegOf_cons]
    constructor
    · intro h
      exact absurd (List.append_eq_nil.mp h).1 (recBytes_ne_nil q)
    · intro h; cases h

theorem tuples_cons (q : List Nat × List Nat) (rs : List (List Nat × List Nat)) (p : Nat) :
    tuples (q :: rs) p
      = (q.1, recBytes q, p + q.1.length + 1) :: tuples rs (p + (recBytes q).length) := rfl

theorem tuples_append (xs ys : List (List Nat × List Nat)) (p : Nat) :
    tuples (xs ++ ys) p = tuples xs p ++ tuples ys (p + (SegOf xs).length) := by
  induction xs generalizing p with
  | nil => simp [tuples, SegOf]
  | cons q rest ih =>
    simp only [List.cons_append, tuples_cons, SegOf_cons, ih, List.length_append]
    have : p + (recBytes q).length + (SegOf rest).length
        = p + ((recBytes q).length + (SegOf rest).length) := by omega
    rw [this]

theorem findZeroFrom_bounds (l : List Nat) (p i : Nat) (h : findZeroFrom l p = some i) :
    p ≤ i ∧ i < p + l.length := by
  induction l generalizing p with
  | nil => cases h
  | cons b rest ih =>
    unfold findZeroFrom at h
    by_cases hb : b = 0
    · rw [if_pos hb] at h
      cases h
      simp
    · rw [if_neg hb] at h
      rcases ih (p + 1) h with ⟨h1, h2⟩
      constructor
      · omega
      · simp only [List.length_cons]
        omega

theorem findZero_bounds (buf : List Nat) (p i : Nat) (h : findZero buf p = some i) :
    p ≤ i ∧ i < buf.length := by
  unfold findZero at h
  rcases findZeroFrom_bounds _ _ _ h with ⟨h1, h2⟩
  refine ⟨h1, ?_⟩
  rw [List.length_drop] at h2
  by_cases hp : p ≤ buf.length
  · omega
  · rw [List.drop_eq_nil_of_le (by omega)] at h
    cases h

theorem findZeroFrom_before (a : List Nat) :
    ∀ (p : Nat) (rest : List Nat), (∀ b ∈ a, b ≠ 0) →
    findZeroFrom (a ++ 0 :: rest) p = some (p + a.length) := by
  induction a with
  | nil =>
    intro p rest _
    simp [findZeroFrom]
  | cons b a' ih =>
    intro p rest ha
    have hb : b ≠ 0 := ha b (List.mem_cons_self _ _)
    show findZeroFrom (b :: (a' ++ 0 :: rest)) p = _
    unfold findZeroFrom
    rw [if_neg hb, ih (p + 1) rest (fun x hx => ha x (List.mem_cons_of_mem _ hx))]
    simp only [List.length_cons]
    congr 1
    omega

theorem findZero_before (buf : List Nat) (p : Nat) (a rest : List Nat)
    (hd : buf.drop p = a ++ 0 :: rest) (ha : ∀ b ∈ a, b ≠ 0) :
    findZero buf p = some (p + a.length) := by
  unfold findZero
  rw [hd]
  exact findZeroFrom_before a p rest ha

theorem findZeroFrom_none (l : List Nat) :
    ∀ (p : Nat), (∀ b ∈ l, b ≠ 0) → findZeroFrom l p = none := by
  induction l with
  | nil => intro p _; rfl
  | cons b rest ih =>
    intro p h
    unfold findZeroFrom
    rw [if_neg (h b (List.mem_cons_self _ _)), ih (p + 1) (fun x hx => h x (List.mem_cons_of_mem _ hx))]

theorem findZero_none_of (buf : List Nat) (p : Nat) (h0 : ∀ b ∈ buf.drop p, b ≠ 0) :
    findZero buf p = none :=
  findZeroFrom_none _ p h0

theorem firstZeroSplit (t : List Nat) (h : 0 ∈ t) :
    ∃ a b, t = a ++ 0 :: b ∧ ¬ 0 ∈ a := by
  induction t with
  | nil => cases h
  | cons x rest ih =>
    by_cases hx : x = 0
    · exact ⟨[], rest, by rw [hx]; rfl, by simp⟩
    · have hmem : 0 ∈ rest := by
        rcases List.mem_cons.mp h with h' | h'
        · exact absurd h'.symm hx
        · exact h'
      rcases ih hmem with ⟨a, b, hab, ha⟩
      refine ⟨x :: a, b, by rw [hab]; rfl, ?_⟩
      intro hm
      rcases List.mem_cons.mp hm with hm' | hm'
      · exact hx hm'.symm
      · exact ha hm'

theorem kvNext_record (buf : List Nat) (p : Nat) (k v rest : List Nat)
    (hd : buf.drop p = recBytes (k, v) ++ rest)
    (hk : k ≠ []) (hk0 : ¬ 0 ∈ k) (hv0 : ¬ 0 ∈ v) :
    kvNext buf p
      = some (k, recBytes (k, v), p + k.length + 1, p + k.length + v.length + 2) := by
  have hd1 : buf.drop p = k ++ 0 :: (v ++ 0 :: rest) := by
    rw [hd]; simp [recBytes]
  have h1 : findZero buf p = some (p + k.length) :=
    findZero_before buf p k (v ++ 0 :: rest) hd1
      (fun b hb h0 => hk0 (h0 ▸ hb))
  have hd2 : buf.drop (p + k.length + 1) = v ++ 0 :: rest := by
    have hdd : buf.drop (p + k.length + 1) = (buf.drop p).drop (k.length + 1) := by
      rw [List.drop_drop]
      congr 1
    rw [hdd, hd1, show k ++ 0 :: (v ++ 0 :: rest) = (k ++ [0]) ++ (v ++ 0 :: rest) by simp,
      show k.length + 1 = (k ++ [0]).length by simp]
    exact List.drop_left _ _
  have h2 : findZero buf (p + k.length + 1) = some (p + k.length + 1 + v.length) :=
    findZero_before _ _ v rest hd2 (fun b hb h0 => hv0 (h0 ▸ hb))
  have hkey : byteSlice buf p (p + k.length) = k := by
    unfold byteSlice
    rw [hd1, show p + k.length - p = k.length from by omega,
      show k ++ 0 :: (v ++ 0 :: rest) = k ++ (0 :: (v ++ 0 :: rest)) from rfl]
    exact List.take_left _ _
  have hraw : byteSlice buf p (p + k.length + 1 + v.length + 1) = recBytes (k, v) := by
    unfold byteSlice
    rw [hd, show p + k.length + 1 + v.length + 1 - p = (recBytes (k, v)).length from by
      rw [recBytes_length]; simp; omega]
    exact List.take_left _ _
  unfold kvNext
  simp only [h1, h2, hkey, hraw, if_neg hk]
  have harith : p + k.length + 1 + v.length + 1 = p + k.length + v.length + 2 := by omega
  rw [harith]

theorem kvNext_tail (buf : List Nat) (p : Nat) (t : List Nat)
    (hd : buf.drop p = t) (ht : t.count 0 ≤ 1) : kvNext buf p = none := by
  by_cases h0 : 0 ∈ t
  · rcases firstZeroSplit t h0 with ⟨a, b, rfl, ha⟩
    have h1 : findZero buf p = some (p + a.length) :=
      findZero_before buf p a b hd (fun x hx h => ha (h ▸ hx))
    have hb : ¬ 0 ∈ b := by
      intro hmem
      have hpos : 0 < List.count 0 b := List.count_pos_iff.mpr hmem
      rw [List.count_append, List.count_cons_self] at ht
      omega
    have hd2 : buf.drop (p + a.length + 1) = b := by
      have hdd : buf.drop (p + a.length + 1) = (buf.drop p).drop (a.length + 1) := by
        rw [List.drop_drop]
        congr 1
      rw [hdd, hd, show a ++ 0 :: b = (a ++ [0]) ++ b by simp,
        show a.length + 1 = (a ++ [0]).length by simp]
      exact List.drop_left _ _
    have h2 : findZero buf (p + a.length + 1) = none := by
      refine findZero_none_of _ _ ?_
      rw [hd2]
      intro x hx h
      exact hb (h ▸ hx)
    unfold kvNext
    simp only [h1, h2]
  · have h1 : findZero buf p = none := by
      refine findZero_none_of _ _ ?_
      rw [hd]
      intro x hx h
      exact h0 (h ▸ hx)
    unfold kvNext
    simp only [h1]

theorem kvNext_ge (buf : List Nat) (p : Nat) (h : buf.length ≤ p) : kvNext buf p = none := by
  refine kvNext_tail buf p [] (List.drop_eq_nil_of_le h) (by simp)

theorem kvNext_some_lt (buf : List Nat) (p : Nat) (k raw : List Nat) (voff p' : Nat)
    (h : kvNext buf p = some (k, raw, voff, p')) : p + 2 ≤ p' ∧ p' ≤ buf.length := by
  unfold kvNext at h
  cases h1 : findZero buf p with
  | none => simp only [h1] at h; cases h
  | some i =>
    simp only [h1] at h
    cases h2 : findZero buf (i + 1) with
    | none => simp only [h2] at h; cases h
    | some j =>
      simp only [h2] at h
      rcases findZero_bounds _ _ _ h1 with ⟨hi1, hi2⟩
      rcases findZero_bounds _ _ _ h2 with ⟨hj1, hj2⟩
      by_cases hkey : byteSlice buf p i = []
      · simp only [if_pos hkey] at h; cases h
      · simp only [if_neg hkey] at h
        cases h
        omega

theorem kvIterAux_ge (buf : List Nat) (fuel p : Nat) (h : buf.length ≤ p) :
    kvIterAux buf fuel p = [] := by
  cases fuel with
  | zero => rfl
  | succ n =>
    show (match kvNext buf p with
      | none => []
      | some (k, raw, voff, p') => (k, raw, voff) :: kvIterAux buf n p') = []
    rw [kvNext_ge buf p h]

theorem kvIterAux_stable (buf : List Nat) :
    ∀ (f1 f2 p : Nat), buf.length + 1 - p ≤ f1 → buf.length + 1 - p ≤ f2 →
    kvIterAux buf f1 p = kvIterAux buf f2 p := by
  intro f1
  induction f1 with
  | zero =>
    intro f2 p h1 _
    rw [kvIterAux_ge buf f2 p (by omega)]
    rfl
  | succ n ih =>
    intro f2 p h1 h2
    cases f2 with
    | zero =>
      rw [kvIterAux_ge buf (n + 1) p (by omega)]
      rfl
    | succ m =>
      show (match kvNext buf p with
        | none => []
        | some (k, raw, voff, p') => (k, raw, voff) :: kvIterAux buf n p')
        = (match kvNext buf p with
        | none => []
        | some (k, raw, voff, p') => (k, raw, voff) :: kvIterAux buf m p')
      cases hn : kvNext buf p with
      | none => rfl
      | some x =>
        rcases x with ⟨k, raw, voff, p'⟩
        rcases kvNext_some_lt buf p k raw voff p' hn with ⟨hl, hr⟩
        show (k, raw, voff) :: kvIterAux buf n p' = (k, raw, voff) :: kvIterAux buf m p'
        rw [ih m p' (by omega) (by omega)]

theorem kvIter_unfold (buf : List Nat) (p : Nat) :
    kvIter buf p = (match kvNext buf p with
      | none => []
      | some (k, raw, voff, p') => (k, raw, voff) :: kvIter buf p') := by
  show kvIterAux buf (buf.length + 1) p = _
  cases hn : kvNext buf p with
  | none =>
    by_cases hp : buf.length + 1 ≤ p
    · rw [kvIterAux_ge buf _ p (by omega)]
    · show (match kvNext buf p with
        | none => []
        | some (k, raw, voff, p') => (k, raw, voff) :: kvIterAux buf buf.length p') = _
      rw [hn]
  | some x =>
    rcases x with ⟨k, raw, voff, p'⟩
    show (match kvNext buf p with
      | none => []
      | some (k, raw, voff, p') => (k, raw, voff) :: kvIterAux buf buf.length p') = _
    rw [hn]
    rcases kvNext_some_lt buf p k raw voff p' hn with ⟨hl, hr⟩
    show (k, raw, voff) :: kvIterAux buf buf.length p' = (k, raw, voff) :: kvIter buf p'
    rw [kvIterAux_stable buf buf.length (buf.length + 1) p' (by omega) (by omega)]
    rfl

theorem kvIter_eq_tuples (rs : List (List Nat × List Nat)) :
    ∀ (p : Nat) (buf t : List Nat),
    (∀ q ∈ rs, ValidKV q.1 q.2) → buf.drop p = SegOf rs ++ t → t.count 0 ≤ 1 →
    kvIter buf p = tuples rs p := by
  induction rs with
  | nil =>
    intro p buf t _ hd ht
    rw [kvIter_unfold, kvNext_tail buf p t (by simpa [SegOf] using hd) ht]
    rfl
  | cons q rest ih =>
    intro p buf t hval hd ht
    rcases hval q (List.mem_cons_self _ _) with ⟨hk, _, hk0, hv0⟩
    have hd1 : buf.drop p = recBytes q ++ (SegOf rest ++ t) := by
      rw [hd, SegOf_cons]
      simp
    have hnext := kvNext_record buf p q.1 q.2 (SegOf rest ++ t) (by
      rw [hd1]) hk hk0 hv0
    rw [kvIter_unfold, hnext]
    have hd2 : buf.drop (p + q.1.length + q.2.length + 2) = SegOf rest ++ t := by
      have hdd : buf.drop (p + q.1.length + q.2.length + 2)
          = (buf.drop p).drop ((recBytes q).length) := by
        rw [List.drop_drop, recBytes_length]
        congr 1
        omega
      rw [hdd, hd1]
      exact List.drop_left _ _
    have htail := ih (p + q.1.length + q.2.length + 2) buf t
      (fun x hx => hval x (List.mem_cons_of_mem _ hx)) hd2 ht
    show (q.1, recBytes (q.1, q.2), p + q.1.length + 1)
        :: kvIter buf (p + q.1.length + q.2.length + 2) = tuples (q :: rest) p
    rw [tuples_cons, show p + (recBytes q).length = p + q.1.length + q.2.length + 2 from by
      rw [recBytes_length]; omega, ← htail]

theorem SegOf_snoc (rs : List (List Nat × List Nat)) (q : List Nat × List Nat) :
    SegOf (rs ++ [q]) = SegOf rs ++ recBytes q := by
  rw [SegOf_append]
  simp [SegOf]

theorem RecAtFrom_nil (base : Nat) (k : List Nat) (voff : Nat) (v : List Nat) :
    ¬ RecAtFrom [] base k voff v := by
  rintro ⟨pre, post, hrs, -⟩
  simp at hrs

theorem RecAtFrom_cases (r : List Nat × List Nat) (rest : List (List Nat × List Nat))
    (base : Nat) (k : List Nat) (voff : Nat) (v : List Nat)
    (h : RecAtFrom (r :: rest) base k voff v) :
    (r = (k, v) ∧ voff = base + k.length + 1)
      ∨ RecAtFrom rest (base + (recBytes r).length) k voff v := by
  rcases h with ⟨pre, post, hrs, hvoff⟩
  cases pre with
  | nil =>
    left
    rcases List.cons.injEq .. ▸ hrs with ⟨h1, h2⟩
    refine ⟨h1, ?_⟩
    rw [hvoff]
    simp [SegOf]
  | cons r' pre' =>
    right
    have h1 : r = r' ∧ rest = pre' ++ (k, v) :: post := by
      have := hrs
      simp only [List.cons_append] at this
      exact ⟨(List.cons.injEq .. ▸ this).1, (List.cons.injEq .. ▸ this).2⟩
    refine ⟨pre', post, h1.2, ?_⟩
    rw [hvoff, h1.1]
    rw [SegOf_cons, List.length_append]
    omega

theorem RecAtFrom_head_unique (r : List Nat × List Nat) (rest : List (List Nat × List Nat))
    (base : Nat) (v : List Nat)
    (h : RecAtFrom (r :: rest) base r.1 (base + r.1.length + 1) v) : v = r.2 := by
  rcases RecAtFrom_cases r rest base r.1 _ v h with ⟨h1, -⟩ | h1
  · rcases r with ⟨a, b⟩
    cases h1
    rfl
  · rcases h1 with ⟨pre, post, -, hvoff⟩
    have := recBytes_length r
    omega

theorem RecAtFrom_append (rs rs2 : List (List Nat × List Nat)) (base : Nat)
    (k : List Nat) (voff : Nat) (v : List Nat) (h : RecAtFrom rs base k voff v) :
    RecAtFrom (rs ++ rs2) base k voff v := by
  rcases h with ⟨pre, post, hrs, hvoff⟩
  exact ⟨pre, post ++ rs2, by rw [hrs]; simp, hvoff⟩

theorem RecAtFrom_snoc_self (rs : List (List Nat × List Nat)) (base : Nat)
    (k v : List Nat) :
    RecAtFrom (rs ++ [(k, v)]) base k (base + (SegOf rs).length + k.length + 1) v :=
  ⟨rs, [], rfl, rfl⟩

theorem RecAtFrom_read (rs : List (List Nat × List Nat)) (k : List Nat) (voff : Nat)
    (v : List Nat) (h : RecAtFrom rs 0 k voff v) :
    voff + v.length ≤ (SegOf rs).length ∧ byteSlice (SegOf rs) voff (voff + v.length) = v := by
  rcases h with ⟨pre, post, rfl, hvoff⟩
  rw [SegOf_append, SegOf_cons]
  have hsplit : SegOf pre ++ (recBytes (k, v) ++ SegOf post)
      = (SegOf pre ++ k ++ [0]) ++ (v ++ (0 :: SegOf post)) := by
    simp [recBytes]
  have hlen : (SegOf pre ++ k ++ [0]).length = voff := by
    simp only [List.length_append, List.length_cons, List.length_nil]
    omega
  constructor
  · rw [hsplit, List.length_append, hlen]
    simp
  · unfold byteSlice
    rw [hsplit, ← hlen, List.drop_left, Nat.add_sub_cancel_left]
    exact List.take_left _ _

theorem tuples_mem_keys (rs : List (List Nat × List Nat)) (p : Nat)
    (x : List Nat × List Nat × Nat) (h : x ∈ tuples rs p) : ∃ v, (x.1, v) ∈ rs := by
  induction rs generalizing p with
  | nil => cases h
  | cons q rest ih =>
    rw [tuples_cons] at h
    rcases List.mem_cons.mp h with h | h
    · exact ⟨q.2, by rw [h]; exact List.mem_cons_self _ _⟩
    · rcases ih _ h with ⟨v, hv⟩
      exact ⟨v, List.mem_cons_of_mem _ hv⟩

theorem initState_eq : initState = ⟨[], [(⟨0, 0⟩, ⟨[], 0, true⟩)], 0, ⟨0, 0⟩, 0⟩ := rfl

theorem init_inv : KInv initState (fun _ => []) (fun _ => none) := by
  rw [initState_eq]
  constructor
  · exact List.pairwise_singleton _ _
  · intro fi fe hget
    rw [bGet_cons] at hget
    by_cases h : (⟨0, 0⟩ : FileIndex) = fi
    · rw [if_pos h] at hget
      cases hget
      exact ⟨rfl, by intro q hq; cases hq⟩
    · rw [if_neg h] at hget
      cases hget
  · intro k e h
    cases h
  · intro k _
    rfl
  · intro fi fe hget q hq
    cases hq
  · intro fe hget
    rw [bGet_cons, if_pos rfl] at hget
    cases hget
    rfl
  · rfl
  · intro fi fe hget
    rw [bGet_cons] at hget
    by_cases h : (⟨0, 0⟩ : FileIndex) = fi
    · rw [← h]
    · rw [if_neg h] at hget
      cases hget
  · intro fi fi' fe fe' hget hget' _
    rw [bGet_cons] at hget hget'
    by_cases h : (⟨0, 0⟩ : FileIndex) = fi
    · by_cases h' : (⟨0, 0⟩ : FileIndex) = fi'
      · rw [← h, ← h']
      · rw [if_neg h'] at hget'
        cases hget'
    · rw [if_neg h] at hget
      cases hget

theorem bGet_next_base_none (s : KState) (R : FileIndex → List (List Nat × List Nat))
    (M : List Nat → Option (List Nat)) (hInv : KInv s R M) :
    bGet s.files ⟨s.current_file_index.base + 1, 0⟩ = none := by
  cases hb : bGet s.files ⟨s.current_file_index.base + 1, 0⟩ with
  | none => rfl
  | some fe =>
    have := hInv.base_ok _ _ hb
    simp at this

theorem cut_off_segment_eq (s : KState) (R : FileIndex → List (List Nat × List Nat))
    (M : List Nat → Option (List Nat)) (hInv : KInv s R M) :
    Kopper.cut_off_segment s = { s with
      current_file_index := ⟨s.current_file_index.base + 1, 0⟩,
      files := bInsert s.files ⟨s.current_file_index.base + 1, 0⟩ ⟨[], 0, true⟩,
      offset := 0 } := by
  unfold Kopper.cut_off_segment
  simp only [bGet_next_base_none s R M hInv]

theorem cut_off_inv (s : KState) (R : FileIndex → List (List Nat × List Nat))
    (M : List Nat → Option (List Nat)) (hInv : KInv s R M) :
    KInv (Kopper.cut_off_segment s)
      (fun fi => if fi = ⟨s.current_file_index.base + 1, 0⟩ then [] else R fi) M := by
  have hnone := bGet_next_base_none s R M hInv
  rw [cut_off_segment_eq s R M hInv]
  constructor
  · exact pairwise_bInsert _ _ _ hInv.sorted
  · intro fi fe hget
    rw [bGet_bInsert] at hget
    by_cases h : (⟨s.current_file_index.base + 1, 0⟩ : FileIndex) = fi
    · rw [if_pos h] at hget
      cases hget
      rw [if_pos h.symm]
      exact ⟨rfl, by intro q hq; cases hq⟩
    · rw [if_neg h] at hget
      rw [if_neg (fun hh => h hh.symm)]
      exact hInv.files_ok fi fe hget
  · intro k e h
    obtain ⟨fe, v, hget, hM, hlen, hrec⟩ := hInv.table_ok k e h
    have hne : e.file_index ≠ ⟨s.current_file_index.base + 1, 0⟩ := by
      intro hh
      rw [hh, hnone] at hget
      cases hget
    refine ⟨fe, v, ?_, hM, hlen, ?_⟩
    · rw [bGet_bInsert, if_neg (fun hh => hne hh.symm)]
      exact hget
    · rw [if_neg hne]
      exact hrec
  · exact hInv.dom_ok
  · intro fi fe hget q hq
    rw [bGet_bInsert] at hget
    by_cases h : (⟨s.current_file_index.base + 1, 0⟩ : FileIndex) = fi
    · rw [if_pos h.symm] at hq
      cases hq
    · rw [if_neg h] at hget
      rw [if_neg (fun hh => h hh.symm)] at hq
      exact hInv.keys_ok fi fe hget q hq
  · intro fe hget
    rw [bGet_bInsert, if_pos rfl] at hget
    cases hget
    rfl
  · rfl
  · intro fi fe hget
    rw [bGet_bInsert] at hget
    by_cases h : (⟨s.current_file_index.base + 1, 0⟩ : FileIndex) = fi
    · rw [← h]
    · rw [if_neg h] at hget
      have := hInv.base_ok fi fe hget
      show fi.base ≤ s.current_file_index.base + 1
      omega
  · intro fi fi' fe fe' h1 h2 hb
    rw [bGet_bInsert] at h1 h2
    by_cases c1 : (⟨s.current_file_index.base + 1, 0⟩ : FileIndex) = fi
    · by_cases c2 : (⟨s.current_file_index.base + 1, 0⟩ : FileIndex) = fi'
      · rw [← c1, ← c2]
      · rw [if_neg c2] at h2
        have := hInv.base_ok fi' fe' h2
        rw [← c1] at hb
        simp at hb
        omega
    · by_cases c2 : (⟨s.current_file_index.base + 1, 0⟩ : FileIndex) = fi'
      · rw [if_neg c1] at h1
        have := hInv.base_ok fi fe h1
        rw [← c2] at hb
        simp at hb
        omega
      · rw [if_neg c1] at h1
        rw [if_neg c2] at h2
        exact hInv.ubase fi fi' fe fe' h1 h2 hb

theorem recBytes_def (k v : List Nat) : recBytes (k, v) = k ++ [0] ++ v ++ [0] := rfl

theorem bGet_content_transfer (f3 files1 : Files)
    (hcontent : ∀ fi, (bGet f3 fi).map FileEntry.content = (bGet files1 fi).map FileEntry.content)
    (fi : FileIndex) (fe : FileEntry) (h : bGet f3 fi = some fe) :
    ∃ fe1, bGet files1 fi = some fe1 ∧ fe.content = fe1.content := by
  have hc := hcontent fi
  rw [h] at hc
  cases hb : bGet files1 fi with
  | none => rw [hb] at hc; cases hc
  | some fe1 =>
    rw [hb] at hc
    exact ⟨fe1, rfl, by injection hc⟩

theorem bGet_content_transfer_rev (f3 files1 : Files)
    (hcontent : ∀ fi, (bGet f3 fi).map FileEntry.content = (bGet files1 fi).map FileEntry.content)
    (fi : FileIndex) (fe1 : FileEntry) (h : bGet files1 fi = some fe1) :
    ∃ fe, bGet f3 fi = some fe ∧ fe.content = fe1.content := by
  have hc := hcontent fi
  rw [h] at hc
  cases hb : bGet f3 fi with
  | none => rw [hb] at hc; cases hc
  | some fe =>
    rw [hb] at hc
    exact ⟨fe, rfl, by injection hc⟩

theorem writeCore_inv (s1 : KState) (R : FileIndex → List (List Nat × List Nat))
    (M : List Nat → Option (List Nat)) (k v : List Nat) (f3 : Files) (fe3 : FileEntry)
    (hInv : KInv s1 R M) (hkv : ValidKV k v)
    (hcontent : ∀ fi, (bGet f3 fi).map FileEntry.content = (bGet s1.files fi).map FileEntry.content)
    (hsorted3 : List.Pairwise (fun a b => fiLt a.1 b.1) f3)
    (hfe3 : bGet f3 s1.current_file_index = some fe3) :
    KInv { table := tInsert s1.table k ⟨s1.current_file_index, s1.offset + k.length + 1, v.length⟩,
           files := bUpdate f3 s1.current_file_index (appendContent (k ++ [0] ++ v ++ [0])),
           offset := s1.offset + (k ++ [0] ++ v ++ [0]).length,
           current_file_index := s1.current_file_index,
           size := s1.size + (k ++ [0] ++ v ++ [0]).length }
      (fun fi => if fi = s1.current_file_index then R fi ++ [(k, v)] else R fi)
      (fun k' => if k' = k then some v else M k') := by
  obtain ⟨fe1, hfe1, hc31⟩ := bGet_content_transfer f3 s1.files hcontent _ fe3 hfe3
  have hcurlen : fe3.content.length = s1.offset := by
    rw [hc31]
    exact hInv.cur_ok fe1 hfe1
  have hcurseg : fe3.content = SegOf (R s1.current_file_index) := by
    rw [hc31]
    exact (hInv.files_ok _ fe1 hfe1).1
  constructor
  · exact pairwise_bUpdate _ _ _ hsorted3
  · intro fi fe hget
    rw [bGet_bUpdate] at hget
    by_cases hc : s1.current_file_index = fi
    · rw [if_pos hc] at hget
      rw [← hc] at hget ⊢
      rw [hfe3] at hget
      cases hget
      rw [if_pos rfl]
      constructor
      · show fe3.content ++ (k ++ [0] ++ v ++ [0]) = _
        rw [SegOf_snoc, hcurseg, recBytes_def]
      · intro q hq
        rcases List.mem_append.mp hq with hq | hq
        · exact (hInv.files_ok _ fe1 hfe1).2 q hq
        · rcases List.mem_singleton.mp hq with rfl
          exact hkv
    · rw [if_neg hc] at hget
      obtain ⟨fe1', hfe1', hc'⟩ := bGet_content_transfer f3 s1.files hcontent _ fe hget
      rw [if_neg (fun hh => hc hh.symm)]
      rw [show fe.content = fe1'.content from hc']
      exact hInv.files_ok fi fe1' hfe1'
  · intro k' e h
    rw [tLookup_tInsert] at h
    by_cases hk : k = k'
    · subst hk
      rw [if_pos rfl] at h
      cases h
      refine ⟨appendContent (k ++ [0] ++ v ++ [0]) fe3, v, ?_, ?_, rfl, ?_⟩
      · show bGet (bUpdate f3 s1.current_file_index (appendContent (k ++ [0] ++ v ++ [0])))
          s1.current_file_index = _
        rw [bGet_bUpdate, if_pos rfl, hfe3]
        rfl
      · rw [if_pos rfl]
      · show RecAtFrom (if s1.current_file_index = s1.current_file_index
            then R s1.current_file_index ++ [(k, v)] else R s1.current_file_index) 0 k
            (s1.offset + k.length + 1) v
        rw [if_pos rfl]
        have := RecAtFrom_snoc_self (R s1.current_file_index) 0 k v
        rw [show (0 : Nat) + (SegOf (R s1.current_file_index)).length + k.length + 1
          = s1.offset + k.length + 1 from by
            rw [← hcurseg, hcurlen]
            omega] at this
        exact this
    · rw [if_neg hk] at h
      obtain ⟨fe, v', hget, hM, hlen, hrec⟩ := hInv.table_ok k' e h
      have hex : ∃ feW, bGet (bUpdate f3 s1.current_file_index
          (appendContent (k ++ [0] ++ v ++ [0]))) e.file_index = some feW := by
        obtain ⟨fe', hfe', -⟩ := bGet_content_transfer_rev f3 s1.files hcontent _ fe hget
        rw [bGet_bUpdate]
        by_cases hc : s1.current_file_index = e.file_index
        · rw [if_pos hc, hfe']
          exact ⟨_, rfl⟩
        · rw [if_neg hc, hfe']
          exact ⟨_, rfl⟩
      obtain ⟨feW, hfeW⟩ := hex
      refine ⟨feW, v', hfeW, ?_, hlen, ?_⟩
      · rw [if_neg (fun hh => hk hh.symm)]
        exact hM
      · by_cases hc : e.file_index = s1.current_file_index
        · rw [if_pos hc, hc]
          rw [hc] at hrec
          exact RecAtFrom_append _ _ _ _ _ _ hrec
        · rw [if_neg hc]
          exact hrec
  · intro k' h
    rw [tLookup_tInsert] at h
    by_cases hk : k = k'
    · rw [if_pos hk] at h
      cases h
    · rw [if_neg hk] at h
      rw [if_neg (fun hh => hk hh.symm)]
      exact hInv.dom_ok k' h
  · intro fi fe hget q hq
    rw [bGet_bUpdate] at hget
    by_cases hc : s1.current_file_index = fi
    · rw [if_pos hc.symm] at hq
      rcases List.mem_append.mp hq with hq | hq
      · rw [if_pos hc, ← hc, hfe3] at hget
        rw [← hc] at hq
        have hold := hInv.keys_ok _ fe1 hfe1 q hq
        rw [tLookup_tInsert]
        by_cases hqk : k = q.1
        · rw [if_pos hqk]
          exact fun hh => by cases hh
        · rw [if_neg hqk]
          exact hold
      · rcases List.mem_singleton.mp hq with rfl
        rw [tLookup_tInsert, if_pos rfl]
        exact fun hh => by cases hh
    · rw [if_neg (fun hh => hc hh.symm)] at hq
      rw [if_neg hc] at hget
      obtain ⟨fe1', hfe1', -⟩ := bGet_content_transfer f3 s1.files hcontent _ fe hget
      have hold := hInv.keys_ok _ fe1' hfe1' q hq
      rw [tLookup_tInsert]
      by_cases hqk : k = q.1
      · rw [if_pos hqk]
        exact fun hh => by cases hh
      · rw [if_neg hqk]
        exact hold
  · intro fe hget
    rw [bGet_bUpdate, if_pos rfl, hfe3] at hget
    cases hget
    show (fe3.content ++ (k ++ [0] ++ v ++ [0])).length = _
    rw [List.length_append, hcurlen]
  · exact hInv.cur_idx
  · intro fi fe hget
    rw [bGet_bUpdate] at hget
    by_cases hc : s1.current_file_index = fi
    · rw [← hc]
    · rw [if_neg hc] at hget
      obtain ⟨fe1', hfe1', -⟩ := bGet_content_transfer f3 s1.files hcontent _ fe hget
      exact hInv.base_ok fi fe1' hfe1'
  · intro fi fi' fe fe' h1 h2 hb
    rw [bGet_bUpdate] at h1 h2
    have hs1 : ∃ g, bGet s1.files fi = some g := by
      by_cases hc : s1.current_file_index = fi
      · rw [if_pos hc] at h1
        cases hx : bGet f3 fi with
        | none => rw [hx] at h1; cases h1
        | some g =>
          obtain ⟨g1, hg1, -⟩ := bGet_content_transfer f3 s1.files hcontent _ g hx
          exact ⟨g1, hg1⟩
      · rw [if_neg hc] at h1
        obtain ⟨g1, hg1, -⟩ := bGet_content_transfer f3 s1.files hcontent _ fe h1
        exact ⟨g1, hg1⟩
    have hs2 : ∃ g, bGet s1.files fi' = some g := by
      by_cases hc : s1.current_file_index = fi'
      · rw [if_pos hc] at h2
        cases hx : bGet f3 fi' with
        | none => rw [hx] at h2; cases h2
        | some g =>
          obtain ⟨g1, hg1, -⟩ := bGet_content_transfer f3 s1.files hcontent _ g hx
          exact ⟨g1, hg1⟩
      · rw [if_neg hc] at h2
        obtain ⟨g1, hg1, -⟩ := bGet_content_transfer f3 s1.files hcontent _ fe' h2
        exact ⟨g1, hg1⟩
    obtain ⟨g1, hg1⟩ := hs1
    obtain ⟨g2, hg2⟩ := hs2
    exact hInv.ubase fi fi' g1 g2 hg1 hg2 hb

theorem bUpdate_bump_content (files1 : Files) (pfi : FileIndex) (fi : FileIndex) :
    (bGet (bUpdate files1 pfi bumpUnused) fi).map FileEntry.content
      = (bGet files1 fi).map FileEntry.content := by
  rw [bGet_bUpdate]
  by_cases h : pfi = fi
  · rw [if_pos h]
    cases bGet files1 fi with
    | none => rfl
    | some fe => rfl
  · rw [if_neg h]

theorem writeBody_inv (s1 : KState) (R : FileIndex → List (List Nat × List Nat))
    (M : List Nat → Option (List Nat)) (k v : List Nat) (s' : KState)
    (hInv : KInv s1 R M) (hkv : ValidKV k v)
    (hs : Kopper.writeBody s1 k v = some s') :
    KInv s' (fun fi => if fi = s1.current_file_index then R fi ++ [(k, v)] else R fi)
      (fun k' => if k' = k then some v else M k') := by
  unfold Kopper.writeBody at hs
  cases hprev : tLookup s1.table k with
  | none =>
    simp only [hprev] at hs
    cases hcur : bGet s1.files s1.current_file_index with
    | none =>
      simp only [hcur] at hs
      cases hs
    | some fe3 =>
      simp only [hcur] at hs
      cases hs
      exact writeCore_inv s1 R M k v s1.files fe3 hInv hkv (fun fi => rfl) hInv.sorted hcur
  | some pe =>
    simp only [hprev] at hs
    cases hpe : bGet s1.files pe.file_index with
    | none =>
      simp only [hpe] at hs
      cases hs
    | some pfe =>
      simp only [hpe] at hs
      cases hcur : bGet (bUpdate s1.files pe.file_index bumpUnused) s1.current_file_index with
      | none =>
        simp only [hcur] at hs
        cases hs
      | some fe3 =>
        simp only [hcur] at hs
        cases hs
        exact writeCore_inv s1 R M k v (bUpdate s1.files pe.file_index bumpUnused) fe3 hInv hkv
          (fun fi => bUpdate_bump_content s1.files pe.file_index fi)
          (pairwise_bUpdate _ _ _ hInv.sorted) hcur

theorem write_inv (segment_size : Nat) (s : KState) (R : FileIndex → List (List Nat × List Nat))
    (M : List Nat → Option (List Nat)) (k v : List Nat) (s' : KState)
    (hInv : KInv s R M) (hkv : ValidKV k v)
    (hs : Kopper.write segment_size s k v = some s') :
    ∃ R', KInv s' R' (fun k' => if k' = k then some v else M k') := by
  unfold Kopper.write at hs
  by_cases htrig : k.length + v.length + 2 + s.offset > segment_size
  · rw [if_pos htrig] at hs
    exact ⟨_, writeBody_inv (Kopper.cut_off_segment s) _ M k v s'
      (cut_off_inv s R M hInv) hkv hs⟩
  · rw [if_neg htrig] at hs
    exact ⟨_, writeBody_inv s R M k v s' hInv hkv hs⟩

theorem tLookup_tInsert_ne_none (t : Table) (k : List Nat) (e : TableEntry) (k' : List Nat)
    (h : tLookup t k' ≠ none) : tLookup (tInsert t k e) k' ≠ none := by
  rw [tLookup_tInsert]
  by_cases hk : k = k'
  · rw [if_pos hk]
    exact fun hh => by cases hh
  · rw [if_neg hk]
    exact h

theorem compactLoopAux_succ (vi ci : FileIndex) (buffer : List Nat) (fuel p : Nat)
    (table : Table) (newc : List Nat) :
    compactLoopAux vi ci buffer (fuel + 1) p table newc
      = match kvNext buffer p with
        | none => some (table, newc)
        | some (key, raw, voff, p') =>
          match tLookup table key with
          | none => none
          | some e =>
            if e.file_index = vi ∧ e.offset = voff then
              compactLoopAux vi ci buffer fuel p'
                (tInsert table key ⟨ci, newc.length + key.length + 1, raw.length - key.length - 2⟩)
                (newc ++ raw)
            else compactLoopAux vi ci buffer fuel p' table newc := rfl

theorem compactLoopAux_ge (vi ci : FileIndex) (buffer : List Nat) (fuel p : Nat)
    (table : Table) (newc : List Nat) (h : buffer.length ≤ p) :
    compactLoopAux vi ci buffer fuel p table newc = some (table, newc) := by
  cases fuel with
  | zero => rfl
  | succ n =>
    rw [compactLoopAux_succ]
    simp only [kvNext_ge buffer p h]

/-- The loop invariant of the `compact` record loop, instantiated at the
suffix `rest` of the victim's records laid out from byte `pos`: every index
entry still pointing at the victim points at an unprocessed record, entries
already repointed at the output segment point at a copied record, and all
other entries are untouched.  Running the loop rewrites every
victim-pointing entry and copies exactly the live records. -/
theorem compactLoop_spec (vi ci : FileIndex) (M : List Nat → Option (List Nat))
    (table0 : Table) (buffer : List Nat) (hvine : vi ≠ ci) :
    ∀ (rest : List (List Nat × List Nat)) (fuel pos : Nat)
      (live : List (List Nat × List Nat)) (table : Table) (newc : List Nat),
    rest.length ≤ fuel →
    buffer.drop pos = SegOf rest →
    (∀ q ∈ rest, ValidKV q.1 q.2) →
    (∀ k', tLookup table k' = none → M k' = none) →
    (∀ q ∈ rest, tLookup table q.1 ≠ none) →
    (∀ k' e, tLookup table k' = some e → e.file_index = vi →
      ∃ v, M k' = some v ∧ e.len = v.length ∧ RecAtFrom rest pos k' e.offset v) →
    (∀ k' e, tLookup table k' = some e → e.file_index = ci →
      ∃ v, M k' = some v ∧ e.len = v.length ∧ RecAtFrom live 0 k' e.offset v) →
    (∀ k' e, tLookup table k' = some e → e.file_index ≠ vi → e.file_index ≠ ci →
      tLookup table0 k' = some e) →
    (∀ k', tLookup table0 k' ≠ none → tLookup table k' ≠ none) →
    (∀ q ∈ live, ValidKV q.1 q.2) →
    (∀ q ∈ live, tLookup table q.1 ≠ none) →
    newc = SegOf live →
    ∃ table' live',
      compactLoopAux vi ci buffer fuel pos table newc = some (table', SegOf live') ∧
      (∀ k', tLookup table' k' = none → M k' = none) ∧
      (∀ k' e, tLookup table' k' = some e → e.file_index ≠ vi) ∧
      (∀ k' e, tLookup table' k' = some e → e.file_index = ci →
        ∃ v, M k' = some v ∧ e.len = v.length ∧ RecAtFrom live' 0 k' e.offset v) ∧
      (∀ k' e, tLookup table' k' = some e → e.file_index ≠ vi → e.file_index ≠ ci →
        tLookup table0 k' = some e) ∧
      (∀ k', tLookup table0 k' ≠ none → tLookup table' k' ≠ none) ∧
      (∀ q ∈ live', ValidKV q.1 q.2) ∧
      (∀ q ∈ live', tLookup table' q.1 ≠ none) := by
  intro rest
  induction rest with
  | nil =>
    intro fuel pos live table newc hfuel hdrop hval H1 Hkeys H2 H3 H4 H5 H6 H8 Hnewc
    have hge : buffer.length ≤ pos := by
      have hl := congrArg List.length hdrop
      rw [List.length_drop] at hl
      simp only [SegOf, List.length_nil] at hl
      omega
    refine ⟨table, live, ?_, H1, ?_, H3, H4, H5, H6, H8⟩
    · rw [compactLoopAux_ge vi ci buffer fuel pos table newc hge, Hnewc]
    · intro k' e h hfi
      rcases H2 k' e h hfi with ⟨v, -, -, hrec⟩
      exact RecAtFrom_nil pos k' e.offset v hrec
  | cons r rest2 ih =>
    intro fuel pos live table newc hfuel hdrop hval H1 Hkeys H2 H3 H4 H5 H6 H8 Hnewc
    cases fuel with
    | zero => simp at hfuel
    | succ f =>
      have hd' : buffer.drop pos = recBytes (r.1, r.2) ++ SegOf rest2 := by
        rw [hdrop, SegOf_cons]
      rcases hval r (List.mem_cons_self _ _) with ⟨hrk, -, hrk0, hrv0⟩
      have hkvnext := kvNext_record buffer pos r.1 r.2 (SegOf rest2) hd' hrk hrk0 hrv0
      cases hlook : tLookup table r.1 with
      | none => exact absurd hlook (Hkeys r (List.mem_cons_self _ _))
      | some e =>
        have hdrop2 : buffer.drop (pos + r.1.length + r.2.length + 2) = SegOf rest2 := by
          have hdd : buffer.drop (pos + r.1.length + r.2.length + 2)
              = (buffer.drop pos).drop ((recBytes r).length) := by
            rw [List.drop_drop, recBytes_length]
            congr 1
            omega
          rw [hdd, hd']
          exact List.drop_left _ _
        have hposdrop : pos + r.1.length + r.2.length + 2 = pos + (recBytes r).length := by
          rw [recBytes_length]
          omega
        by_cases hcond : e.file_index = vi ∧ e.offset = pos + r.1.length + 1
        · -- the entry still points at this victim record: it is live
          rcases H2 r.1 e hlook hcond.1 with ⟨v, hMv, hlenv, hrec⟩
          have hveq : v = r.2 := by
            refine RecAtFrom_head_unique r rest2 pos v ?_
            rw [← hcond.2]
            exact hrec
          subst hveq
          have hlen2 : (recBytes (r.1, r.2)).length - r.1.length - 2 = r.2.length := by
            rw [recBytes_length]
            show r.1.length + r.2.length + 2 - r.1.length - 2 = r.2.length
            omega
          obtain ⟨table', live', hrun, C1, C2, C3, C4, C5, C6, C8⟩ :=
            ih f (pos + r.1.length + r.2.length + 2) (live ++ [r])
              (tInsert table r.1 ⟨ci, newc.length + r.1.length + 1,
                (recBytes (r.1, r.2)).length - r.1.length - 2⟩) (newc ++ recBytes (r.1, r.2))
              (by simpa using hfuel)
              hdrop2
              (fun q hq => hval q (List.mem_cons_of_mem _ hq))
              (by
                intro k' hk'
                rw [tLookup_tInsert] at hk'
                by_cases hkr : r.1 = k'
                · rw [if_pos hkr] at hk'
                  cases hk'
                · rw [if_neg hkr] at hk'
                  exact H1 k' hk')
              (fun q hq => tLookup_tInsert_ne_none _ _ _ _
                (Hkeys q (List.mem_cons_of_mem _ hq)))
              (by
                -- victim entries now point into the shifted suffix
                intro k' e' h' hfi'
                rw [tLookup_tInsert] at h'
                by_cases hkr : r.1 = k'
                · rw [if_pos hkr] at h'
                  cases h'
                  exact absurd hfi' hvine.symm
                · rw [if_neg hkr] at h'
                  rcases H2 k' e' h' hfi' with ⟨v', hMv', hlenv', hrec'⟩
                  rcases RecAtFrom_cases r rest2 pos k' e'.offset v' hrec' with ⟨hr1, -⟩ | hshift
                  · exact absurd (show r.1 = k' from by rw [hr1]) hkr
                  · refine ⟨v', hMv', hlenv', ?_⟩
                    rw [hposdrop]
                    exact hshift)
              (by
                -- output entries point at copied records
                intro k' e' h' hfi'
                rw [tLookup_tInsert] at h'
                by_cases hkr : r.1 = k'
                · rw [if_pos hkr] at h'
                  cases h'
                  refine ⟨r.2, ?_, hlen2, ?_⟩
                  · rw [← hkr]
                    exact hMv
                  · have hsnoc := RecAtFrom_snoc_self live 0 r.1 r.2
                    rw [show (0 : Nat) + (SegOf live).length + r.1.length + 1
                      = newc.length + r.1.length + 1 from by rw [← Hnewc]; omega] at hsnoc
                    rw [← hkr]
                    exact hsnoc
                · rw [if_neg hkr] at h'
                  rcases H3 k' e' h' hfi' with ⟨v', hMv', hlenv', hrec'⟩
                  exact ⟨v', hMv', hlenv', RecAtFrom_append _ [r] _ _ _ _ hrec'⟩)
              (by
                intro k' e' h' hvi' hci'
                rw [tLookup_tInsert] at h'
                by_cases hkr : r.1 = k'
                · rw [if_pos hkr] at h'
                  cases h'
                  exact absurd rfl hci'
                · rw [if_neg hkr] at h'
                  exact H4 k' e' h' hvi' hci')
              (fun k' h' => tLookup_tInsert_ne_none _ _ _ _ (H5 k' h'))
              (by
                intro q hq
                rcases List.mem_append.mp hq with hq | hq
                · exact H6 q hq
                · rw [List.mem_singleton.mp hq]
                  exact hval r (List.mem_cons_self _ _))
              (by
                intro q hq
                rcases List.mem_append.mp hq with hq | hq
                · exact tLookup_tInsert_ne_none _ _ _ _ (H8 q hq)
                · rw [List.mem_singleton.mp hq, tLookup_tInsert, if_pos rfl]
                  exact fun hh => by cases hh)
              (by
                rw [SegOf_snoc, Hnewc])
          refine ⟨table', live', ?_, C1, C2, C3, C4, C5, C6, C8⟩
          rw [compactLoopAux_succ]
          simp only [hkvnext, hlook, if_pos hcond]
          exact hrun
        · -- the entry moved elsewhere: the record is dead, skip it
          obtain ⟨table', live', hrun, C1, C2, C3, C4, C5, C6, C8⟩ :=
            ih f (pos + r.1.length + r.2.length + 2) live table newc
              (by simpa using hfuel)
              hdrop2
              (fun q hq => hval q (List.mem_cons_of_mem _ hq))
              H1
              (fun q hq => Hkeys q (List.mem_cons_of_mem _ hq))
              (by
                intro k' e' h' hfi'
                rcases H2 k' e' h' hfi' with ⟨v', hMv', hlenv', hrec'⟩
                rcases RecAtFrom_cases r rest2 pos k' e'.offset v' hrec' with ⟨hr1, hoff⟩ | hshift
                · exfalso
                  have hkr : r.1 = k' := by rw [hr1]
                  have he'e : e' = e := by
                    rw [hkr] at hlook
                    rw [h'] at hlook
                    exact Option.some.inj hlook
                  apply hcond
                  constructor
                  · rw [← he'e]
                    exact hfi'
                  · calc e.offset = e'.offset := by rw [he'e]
                      _ = pos + k'.length + 1 := hoff
                      _ = pos + r.1.length + 1 := by rw [hkr]
                · refine ⟨v', hMv', hlenv', ?_⟩
                  rw [hposdrop]
                  exact hshift)
              H3 H4 H5 H6 H8 Hnewc
          refine ⟨table', live', ?_, C1, C2, C3, C4, C5, C6, C8⟩
          rw [compactLoopAux_succ]
          simp only [hkvnext, hlook, if_neg hcond]
          exact hrun

theorem SegOf_length_ge (rs : List (List Nat × List Nat)) : rs.length ≤ (SegOf rs).length := by
  induction rs with
  | nil => simp [SegOf]
  | cons q rest ih =>
    rw [SegOf_cons, List.length_append, recBytes_length]
    simp only [List.length_cons]
    omega

theorem compact_inv (s : KState) (R : FileIndex → List (List Nat × List Nat))
    (M : List Nat → Option (List Nat)) (s' : KState) (hInv : KInv s R M)
    (hs : Kopper.compact s = some s') : ∃ R', KInv s' R' M := by
  rcases hsf : s.files with - | ⟨f0, rest⟩
  · unfold Kopper.compact at hs
    rw [hsf] at hs
    cases hs
  · have hvmem : selectVictim (f0 :: rest) f0 ∈ s.files := by
      rw [hsf]
      rcases selectVictim_mem (f0 :: rest) f0 with h | h
      · rw [h]
        exact List.mem_cons_self _ _
      · exact h
    have hvget : bGet s.files (selectVictim (f0 :: rest) f0).1
        = some (selectVictim (f0 :: rest) f0).2 :=
      bGet_of_mem s.files _ hInv.sorted hvmem
    obtain ⟨hvcontent, hvval⟩ := hInv.files_ok _ _ hvget
    have hvine : (selectVictim (f0 :: rest) f0).1
        ≠ (⟨(selectVictim (f0 :: rest) f0).1.base,
            (selectVictim (f0 :: rest) f0).1.index + 1⟩ : FileIndex) := by
      intro hh
      have := congrArg FileIndex.index hh
      simp at this
    have hci_none : bGet s.files
        (⟨(selectVictim (f0 :: rest) f0).1.base,
          (selectVictim (f0 :: rest) f0).1.index + 1⟩ : FileIndex) = none := by
      cases hb : bGet s.files ⟨(selectVictim (f0 :: rest) f0).1.base,
          (selectVictim (f0 :: rest) f0).1.index + 1⟩ with
      | none => rfl
      | some fe =>
        have := hInv.ubase _ _ _ _ hvget hb rfl
        exact absurd this hvine
    obtain ⟨table', live', hrun, C1, C2, C3, C4, C5, C6, C8⟩ :=
      compactLoop_spec (selectVictim (f0 :: rest) f0).1
        ⟨(selectVictim (f0 :: rest) f0).1.base, (selectVictim (f0 :: rest) f0).1.index + 1⟩
        M s.table (selectVictim (f0 :: rest) f0).2.content hvine
        (R (selectVictim (f0 :: rest) f0).1)
        ((selectVictim (f0 :: rest) f0).2.content.length + 1) 0 [] s.table []
        (by
          rw [hvcontent]
          have := SegOf_length_ge (R (selectVictim (f0 :: rest) f0).1)
          omega)
        (by rw [List.drop_zero, hvcontent])
        hvval
        hInv.dom_ok
        (fun q hq => hInv.keys_ok _ _ hvget q hq)
        (by
          intro k' e h hfi
          obtain ⟨fe, v, hget, hM, hlen, hrec⟩ := hInv.table_ok k' e h
          rw [hfi] at hrec
          exact ⟨v, hM, hlen, hrec⟩)
        (by
          intro k' e h hfi
          obtain ⟨fe, v, hget, hM, hlen, hrec⟩ := hInv.table_ok k' e h
          rw [hfi, hci_none] at hget
          cases hget)
        (fun k' e h _ _ => h)
        (fun k' h => h)
        (fun q hq => absurd hq (List.not_mem_nil q))
        (fun q hq => absurd hq (List.not_mem_nil q))
        rfl
    have hrun' : compactLoop (selectVictim (f0 :: rest) f0).1
        ⟨(selectVictim (f0 :: rest) f0).1.base, (selectVictim (f0 :: rest) f0).1.index + 1⟩
        (selectVictim (f0 :: rest) f0).2.content s.table = some (table', SegOf live') := by
      unfold compactLoop
      exact hrun
    unfold Kopper.compact at hs
    simp only [hsf] at hs
    have hread : (selectVictim (f0 :: rest) f0).2.readable = true := by
      by_contra hr
      rw [if_neg hr] at hs
      cases hs
    rw [if_pos hread] at hs
    simp only [hrun'] at hs
    set victim := selectVictim (f0 :: rest) f0 with hvic
    set ci : FileIndex := ⟨victim.1.base, victim.1.index + 1⟩ with hcidef
    rw [← hsf] at hs
    have hbase_vi : victim.1.base ≤ s.current_file_index.base := hInv.base_ok _ _ hvget
    have hcur_ne_ci : ci ≠ s.current_file_index := by
      intro hh
      have h1 : ci.index = victim.1.index + 1 := by rw [hcidef]
      have h2 : ci.index = 0 := by rw [hh]; exact hInv.cur_idx
      omega
    refine ⟨fun fi => if fi = ci then live' else R fi, ?_⟩
    by_cases hlive : SegOf live' = []
    · -- no live record: no output file is created
      rw [if_pos hlive] at hs
      have hlive' : live' = [] := (SegOf_eq_nil live').mp hlive
      cases hs
      constructor
      · exact pairwise_bRemove _ _ hInv.sorted
      · intro fi fe hget
        rw [bGet_bRemove] at hget
        by_cases hvi : victim.1 = fi
        · rw [if_pos hvi] at hget
          cases hget
        · rw [if_neg hvi] at hget
          by_cases hci : ci = fi
          · rw [← hci, hci_none] at hget
            cases hget
          · rw [if_neg (fun hh => hci hh.symm)]
            exact hInv.files_ok fi fe hget
      · intro k e h
        by_cases hfi : e.file_index = ci
        · obtain ⟨v, hM, hlen, hrec⟩ := C3 k e h hfi
          rw [hlive'] at hrec
          exact absurd hrec (RecAtFrom_nil _ _ _ _)
        · have hvi' := C2 k e h
          have hold := C4 k e h hvi' hfi
          obtain ⟨fe, v, hget, hM, hlen, hrec⟩ := hInv.table_ok k e hold
          refine ⟨fe, v, ?_, hM, hlen, ?_⟩
          · rw [bGet_bRemove, if_neg (fun hh => hvi' hh.symm)]
            exact hget
          · rw [if_neg hfi]
            exact hrec
      · exact C1
      · intro fi fe hget q hq
        rw [bGet_bRemove] at hget
        by_cases hvi : victim.1 = fi
        · rw [if_pos hvi] at hget
          cases hget
        · rw [if_neg hvi] at hget
          by_cases hci : ci = fi
          · rw [← hci, hci_none] at hget
            cases hget
          · rw [if_neg (fun hh => hci hh.symm)] at hq
            exact C5 _ (hInv.keys_ok fi fe hget q hq)
      · intro fe hget
        rw [bGet_bRemove] at hget
        by_cases hvi : victim.1 = s.current_file_index
        · rw [if_pos hvi] at hget
          cases hget
        · rw [if_neg hvi] at hget
          exact hInv.cur_ok fe hget
      · exact hInv.cur_idx
      · intro fi fe hget
        rw [bGet_bRemove] at hget
        by_cases hvi : victim.1 = fi
        · rw [if_pos hvi] at hget
          cases hget
        · rw [if_neg hvi] at hget
          exact hInv.base_ok fi fe hget
      · intro fi fi' fe fe' h1 h2 hb
        rw [bGet_bRemove] at h1 h2
        by_cases hv1 : victim.1 = fi
        · rw [if_pos hv1] at h1
          cases h1
        · rw [if_neg hv1] at h1
          by_cases hv2 : victim.1 = fi'
          · rw [if_pos hv2] at h2
            cases h2
          · rw [if_neg hv2] at h2
            exact hInv.ubase fi fi' fe fe' h1 h2 hb
    · -- some records are live: the output segment is created and inserted
      rw [if_neg hlive] at hs
      simp only [hci_none, List.nil_append] at hs
      cases hs
      constructor
      · exact pairwise_bRemove _ _ (pairwise_bInsert _ _ _ hInv.sorted)
      · intro fi fe hget
        rw [bGet_bRemove] at hget
        by_cases hvi : victim.1 = fi
        · rw [if_pos hvi] at hget
          cases hget
        · rw [if_neg hvi, bGet_bInsert] at hget
          by_cases hci : ci = fi
          · rw [if_pos hci] at hget
            cases hget
            rw [if_pos hci.symm]
            exact ⟨rfl, C6⟩
          · rw [if_neg hci] at hget
            rw [if_neg (fun hh => hci hh.symm)]
            exact hInv.files_ok fi fe hget
      · intro k e h
        by_cases hfi : e.file_index = ci
        · obtain ⟨v, hM, hlen, hrec⟩ := C3 k e h hfi
          have hne : victim.1 ≠ e.file_index := by
            rw [hfi]
            exact hvine
          refine ⟨⟨SegOf live', 0, false⟩, v, ?_, hM, hlen, ?_⟩
          · rw [bGet_bRemove, if_neg hne, bGet_bInsert, if_pos hfi.symm]
          · rw [if_pos hfi]
            exact hrec
        · have hvi' := C2 k e h
          have hold := C4 k e h hvi' hfi
          obtain ⟨fe, v, hget, hM, hlen, hrec⟩ := hInv.table_ok k e hold
          refine ⟨fe, v, ?_, hM, hlen, ?_⟩
          · rw [bGet_bRemove, if_neg (fun hh => hvi' hh.symm), bGet_bInsert,
              if_neg (fun hh => hfi hh.symm)]
            exact hget
          · rw [if_neg hfi]
            exact hrec
      · exact C1
      · intro fi fe hget q hq
        rw [bGet_bRemove] at hget
        by_cases hvi : victim.1 = fi
        · rw [if_pos hvi] at hget
          cases hget
        · rw [if_neg hvi, bGet_bInsert] at hget
          by_cases hci : ci = fi
          · rw [if_pos (show fi = ci from hci.symm)] at hq
            exact C8 q hq
          · rw [if_neg (show fi ≠ ci from fun hh => hci hh.symm)] at hq
            rw [if_neg hci] at hget
            exact C5 _ (hInv.keys_ok fi fe hget q hq)
      · intro fe hget
        rw [bGet_bRemove] at hget
        by_cases hvi : victim.1 = s.current_file_index
        · rw [if_pos hvi] at hget
          cases hget
        · rw [if_neg hvi, bGet_bInsert, if_neg hcur_ne_ci] at hget
          exact hInv.cur_ok fe hget
      · exact hInv.cur_idx
      · intro fi fe hget
        rw [bGet_bRemove] at hget
        by_cases hvi : victim.1 = fi
        · rw [if_pos hvi] at hget
          cases hget
        · rw [if_neg hvi, bGet_bInsert] at hget
          by_cases hci : ci = fi
          · rw [← hci]
            exact hbase_vi
          · rw [if_neg hci] at hget
            exact hInv.base_ok fi fe hget
      · intro fi fi' fe fe' h1 h2 hb
        rw [bGet_bRemove] at h1 h2
        by_cases hv1 : victim.1 = fi
        · rw [if_pos hv1] at h1
          cases h1
        · rw [if_neg hv1, bGet_bInsert] at h1
          by_cases hv2 : victim.1 = fi'
          · rw [if_pos hv2] at h2
            cases h2
          · rw [if_neg hv2, bGet_bInsert] at h2
            by_cases hc1 : ci = fi
            · by_cases hc2 : ci = fi'
              · rw [← hc1, ← hc2]
              · rw [if_neg hc2] at h2
                exfalso
                refine hv2 (hInv.ubase victim.1 fi' _ _ hvget h2 ?_)
                rw [← hc1] at hb
                exact hb
            · rw [if_neg hc1] at h1
              by_cases hc2 : ci = fi'
              · exfalso
                refine hv1 (hInv.ubase victim.1 fi _ _ hvget h1 ?_)
                rw [← hc2] at hb
                exact hb.symm
              · rw [if_neg hc2] at h2
                exact hInv.ubase fi fi' fe fe' h1 h2 hb

theorem step_inv (segment_size : Nat) (s : KState) (R : FileIndex → List (List Nat × List Nat))
    (M : List Nat → Option (List Nat)) (op : Op) (s' : KState)
    (hInv : KInv s R M) (hop : ValidOp op)
    (hs : Kopper.step segment_size s op = some s') :
    ∃ R', KInv s' R' (absStep M op) := by
  cases op with
  | write k v => exact write_inv segment_size s R M k v s' hInv hop hs
  | compact => exact compact_inv s R M s' hInv hs

theorem exec_inv (segment_size : Nat) (ops : List Op) :
    ∀ (s : KState) (R : FileIndex → List (List Nat × List Nat))
      (M : List Nat → Option (List Nat)) (s' : KState),
    KInv s R M → (∀ op ∈ ops, ValidOp op) →
    Kopper.exec segment_size s ops = some s' →
    ∃ R', KInv s' R' (absRun M ops) := by
  induction ops with
  | nil =>
    intro s R M s' hInv _ hs
    cases hs
    exact ⟨R, hInv⟩
  | cons op ops ih =>
    intro s R M s' hInv hval hs
    unfold Kopper.exec at hs
    cases hstep : Kopper.step segment_size s op with
    | none =>
      rw [hstep] at hs
      cases hs
    | some s1 =>
      rw [hstep] at hs
      obtain ⟨R1, hInv1⟩ := step_inv segment_size s R M op s1 hInv
        (hval op (List.mem_cons_self _ _)) hstep
      exact ih s1 R1 _ s' hInv1 (fun o ho => hval o (List.mem_cons_of_mem _ ho)) hs

theorem absRun_eq (ops : List Op) : ∀ (M : List Nat → Option (List Nat)) (k : List Nat),
    absRun M ops k = (match lastWrite ops k with
      | some v => some v
      | none => M k) := by
  induction ops with
  | nil => intro M k; rfl
  | cons op ops ih =>
    intro M k
    have h1 : absRun M (op :: ops) = absRun (absStep M op) ops := rfl
    rw [h1, ih]
    show _ = (match (match lastWrite ops k, op with
      | some v, _ => some v
      | none, .write k' v => if k' = k then some v else none
      | none, .compact => none) with
      | some v => some v
      | none => M k)
    cases hlw : lastWrite ops k with
    | some v => simp only [hlw]
    | none =>
      simp only [hlw]
      cases op with
      | write k' v =>
        show (if k = k' then some v else M k)
          = (match (if k' = k then some v else none : Option (List Nat)) with
            | some w => some w
            | none => M k)
        by_cases h : k' = k
        · rw [if_pos (show k = k' from h.symm), if_pos h]
        · rw [if_neg (show ¬ k = k' from fun hh => h hh.symm), if_neg h]
      | compact => rfl

theorem tuples_length (rs : List (List Nat × List Nat)) : ∀ (p : Nat),
    (tuples rs p).length = rs.length := by
  induction rs with
  | nil => intro p; rfl
  | cons q rest ih =>
    intro p
    rw [tuples_cons, List.length_cons, List.length_cons, ih]

theorem bGet_some_mem (l : Files) (fi : FileIndex) (fe : FileEntry)
    (h : bGet l fi = some fe) : (fi, fe) ∈ l := by
  induction l with
  | nil => cases h
  | cons p rest ih =>
    rw [bGet_cons] at h
    by_cases hp : p.1 = fi
    · rw [if_pos hp] at h
      cases h
      rw [← hp]
      exact List.mem_cons_self _ _
    · rw [if_neg hp] at h
      exact List.mem_cons_of_mem _ (ih h)

theorem bInsert_ne_nil (l : Files) (k : FileIndex) (v : FileEntry) : bInsert l k v ≠ [] := by
  cases l with
  | nil => exact fun h => by cases h
  | cons p rest =>
    unfold bInsert
    by_cases h1 : k = p.1
    · rw [if_pos h1]
      exact fun h => by cases h
    · rw [if_neg h1]
      by_cases h2 : fiLt k p.1
      · rw [if_pos h2]
        exact fun h => by cases h
      · rw [if_neg h2]
        exact fun h => by cases h

theorem foldl_createStep_files (listing : List (FileIndex × List Nat)) :
    ∀ (s : KState), (listing.foldl SharedState.createStep s).files
      = listing.foldl (fun f p => bInsert f p.1 ⟨p.2, 0, true⟩) s.files := by
  induction listing with
  | nil => intro s; rfl
  | cons p rest ih =>
    intro s
    rw [List.foldl_cons, List.foldl_cons, ih]
    rfl

theorem foldl_bInsert_sorted (listing : List (FileIndex × List Nat)) :
    ∀ (f : Files), List.Pairwise (fun a b => fiLt a.1 b.1) f →
    List.Pairwise (fun a b => fiLt a.1 b.1)
      (listing.foldl (fun f p => bInsert f p.1 ⟨p.2, 0, true⟩) f) := by
  induction listing with
  | nil => intro f hf; exact hf
  | cons p rest ih =>
    intro f hf
    rw [List.foldl_cons]
    exact ih _ (pairwise_bInsert _ _ _ hf)

theorem foldl_bInsert_ne_nil (listing : List (FileIndex × List Nat)) :
    ∀ (f : Files), f ≠ [] ∨ listing ≠ [] →
    listing.foldl (fun f p => bInsert f p.1 ⟨p.2, 0, true⟩) f ≠ [] := by
  induction listing with
  | nil =>
    intro f h
    rcases h with h | h
    · exact h
    · exact absurd rfl h
  | cons p rest ih =>
    intro f _
    rw [List.foldl_cons]
    exact ih _ (Or.inl (bInsert_ne_nil f p.1 ⟨p.2, 0, true⟩))

theorem foldl_bInsert_keeps (listing : List (FileIndex × List Nat)) :
    ∀ (f : Files) (fi : FileIndex), bGet f fi ≠ none →
    bGet (listing.foldl (fun f p => bInsert f p.1 ⟨p.2, 0, true⟩) f) fi ≠ none := by
  induction listing with
  | nil => intro f fi h; exact h
  | cons p rest ih =>
    intro f fi h
    rw [List.foldl_cons]
    refine ih _ fi ?_
    rw [bGet_bInsert]
    by_cases hp : p.1 = fi
    · rw [if_pos hp]
      exact fun hh => by cases hh
    · rw [if_neg hp]
      exact h

theorem foldl_bInsert_mem (listing : List (FileIndex × List Nat)) :
    ∀ (f : Files) (fi : FileIndex), fi ∈ listing.map Prod.fst →
    bGet (listing.foldl (fun f p => bInsert f p.1 ⟨p.2, 0, true⟩) f) fi ≠ none := by
  induction listing with
  | nil =>
    intro f fi h
    cases h
  | cons p rest ih =>
    intro f fi h
    rw [List.foldl_cons]
    rw [List.map_cons] at h
    rcases List.mem_cons.mp h with h | h
    · refine foldl_bInsert_keeps rest _ fi ?_
      rw [bGet_bInsert, if_pos h.symm]
      exact fun hh => by cases hh
    · exact ih _ fi h

theorem foldl_bInsert_keys_sub (listing : List (FileIndex × List Nat)) :
    ∀ (f : Files) (fi : FileIndex),
    bGet (listing.foldl (fun f p => bInsert f p.1 ⟨p.2, 0, true⟩) f) fi ≠ none →
    fi ∈ listing.map Prod.fst ∨ bGet f fi ≠ none := by
  induction listing with
  | nil => intro f fi h; exact Or.inr h
  | cons p rest ih =>
    intro f fi h
    rw [List.foldl_cons] at h
    rcases ih _ fi h with h' | h'
    · exact Or.inl (by rw [List.map_cons]; exact List.mem_cons_of_mem _ h')
    · rw [bGet_bInsert] at h'
      by_cases hp : p.1 = fi
      · exact Or.inl (by rw [List.map_cons, ← hp]; exact List.mem_cons_self _ _)
      · rw [if_neg hp] at h'
        exact Or.inr h'

theorem create_eq (listing : List (FileIndex × List Nat)) (fi0 : FileIndex)
    (fe0 : FileEntry) (t : Files)
    (h : (listing.foldl SharedState.createStep ⟨[], [], 0, ⟨0, 0⟩, 0⟩).files = (fi0, fe0) :: t) :
    SharedState.create listing
      = { listing.foldl SharedState.createStep ⟨[], [], 0, ⟨0, 0⟩, 0⟩ with
          current_file_index := fi0, offset := fe0.content.length } := by
  unfold SharedState.create
  simp only [h, List.cons_ne_nil, if_false]

theorem cut_off_current (s : KState) :
    (Kopper.cut_off_segment s).current_file_index
      = ⟨s.current_file_index.base + 1, 0⟩ := rfl

theorem cut_off_offset (s : KState) : (Kopper.cut_off_segment s).offset = 0 := rfl

theorem cut_off_table (s : KState) : (Kopper.cut_off_segment s).table = s.table := rfl

theorem cut_off_size (s : KState) : (Kopper.cut_off_segment s).size = s.size := rfl

theorem writeBody_table (s1 : KState) (k v : List Nat) (s' : KState)
    (hs : Kopper.writeBody s1 k v = some s') :
    s'.table = tInsert s1.table k ⟨s1.current_file_index, s1.offset + k.length + 1, v.length⟩ := by
  unfold Kopper.writeBody at hs
  cases hprev : tLookup s1.table k with
  | none =>
    simp only [hprev] at hs
    cases hcur : bGet s1.files s1.current_file_index with
    | none => simp only [hcur] at hs; cases hs
    | some fe3 =>
      simp only [hcur] at hs
      cases hs
      rfl
  | some pe =>
    simp only [hprev] at hs
    cases hpe : bGet s1.files pe.file_index with
    | none => simp only [hpe] at hs; cases hs
    | some pfe =>
      simp only [hpe] at hs
      cases hcur : bGet (bUpdate s1.files pe.file_index bumpUnused) s1.current_file_index with
      | none => simp only [hcur] at hs; cases hs
      | some fe3 =>
        simp only [hcur] at hs
        cases hs
        rfl

theorem writeBody_append (s1 : KState) (k v : List Nat) (s' : KState)
    (hs : Kopper.writeBody s1 k v = some s') :
    (bGet s'.files s1.current_file_index).map FileEntry.content
      = (bGet s1.files s1.current_file_index).map
          (fun fe => fe.content ++ (k ++ [0] ++ v ++ [0])) := by
  unfold Kopper.writeBody at hs
  cases hprev : tLookup s1.table k with
  | none =>
    simp only [hprev] at hs
    cases hcur : bGet s1.files s1.current_file_index with
    | none => simp only [hcur] at hs; cases hs
    | some fe3 =>
      simp only [hcur] at hs
      cases hs
      show (bGet (bUpdate s1.files s1.current_file_index
        (appendContent (k ++ [0] ++ v ++ [0]))) s1.current_file_index).map FileEntry.content = _
      rw [bGet_bUpdate, if_pos rfl, hcur]
      rfl
  | some pe =>
    simp only [hprev] at hs
    cases hpe : bGet s1.files pe.file_index with
    | none => simp only [hpe] at hs; cases hs
    | some pfe =>
      simp only [hpe] at hs
      cases hcur : bGet (bUpdate s1.files pe.file_index bumpUnused) s1.current_file_index with
      | none => simp only [hcur] at hs; cases hs
      | some fe3 =>
        simp only [hcur] at hs
        cases hs
        show (bGet (bUpdate (bUpdate s1.files pe.file_index bumpUnused) s1.current_file_index
          (appendContent (k ++ [0] ++ v ++ [0]))) s1.current_file_index).map FileEntry.content = _
        rw [bGet_bUpdate, if_pos rfl, hcur]
        have hcc := bUpdate_bump_content s1.files pe.file_index s1.current_file_index
        rw [hcur] at hcc
        cases hb : bGet s1.files s1.current_file_index with
        | none => rw [hb] at hcc; cases hcc
        | some fe1 =>
          rw [hb] at hcc
          show some (fe3.content ++ (k ++ [0] ++ v ++ [0])) = _
          rw [show fe3.content = fe1.content from by injection hcc]
          rfl

/-- The record loop of `compact` never hits the `table.get(key).unwrap()`
panic as long as every key the iterator yields from the buffer is present
in the table: `tInsert` only adds keys, so presence is preserved across
iterations. -/
theorem compactLoopAux_ne_none (vi ci : FileIndex) (buffer : List Nat) :
    ∀ (fuel p : Nat) (table : Table) (newc : List Nat),
    (∀ x ∈ kvIter buffer p, tLookup table x.1 ≠ none) →
    compactLoopAux vi ci buffer fuel p table newc ≠ none := by
  intro fuel
  induction fuel with
  | zero =>
    intro p table newc _ hh
    cases hh
  | succ n ih =>
    intro p table newc h
    cases hn : kvNext buffer p with
    | none =>
      rw [compactLoopAux_succ]
      simp only [hn]
      exact fun hh => by cases hh
    | some x =>
      rcases x with ⟨key, raw, voff, p'⟩
      have hiter : kvIter buffer p = (key, raw, voff) :: kvIter buffer p' := by
        rw [kvIter_unfold, hn]
      rw [hiter] at h
      cases hl : tLookup table key with
      | none => exact absurd hl (h (key, raw, voff) (List.mem_cons_self _ _))
      | some e =>
        rw [compactLoopAux_succ]
        simp only [hn, hl]
        by_cases hcond : e.file_index = vi ∧ e.offset = voff
        · rw [if_pos hcond]
          exact ih p' _ _ (fun y hy =>
            tLookup_tInsert_ne_none _ _ _ _ (h y (List.mem_cons_of_mem _ hy)))
        · rw [if_neg hcond]
          exact ih p' _ _ (fun y hy => h y (List.mem_cons_of_mem _ hy))

/-- The compactor's record loop, run over any buffer all of whose
iterator keys are present in the table, never panics. -/
theorem compactLoop_ne_none (vi ci : FileIndex) (buffer : List Nat) (table : Table)
    (h : ∀ x ∈ kvIter buffer 0, tLookup table x.1 ≠ none) :
    compactLoop vi ci buffer table ≠ none :=
  compactLoopAux_ne_none vi ci buffer (buffer.length + 1) 0 table [] h

theorem recoverByte_keeps (fi : FileIndex) (st : RecState) (pos : Nat) (b : Nat)
    (k : List Nat) (h : tLookup st.table k ≠ none) :
    tLookup (SharedState.recoverByte fi st pos b).table k ≠ none := by
  unfold SharedState.recoverByte
  by_cases hb : b = 0
  · rw [if_pos hb]
    cases st.reading with
    | key => exact h
    | value => exact tLookup_tInsert_ne_none _ _ _ _ h
  · rw [if_neg hb]
    cases st.reading with
    | key => exact h
    | value => exact h

theorem recoverGo_keeps (fi : FileIndex) (content : List Nat) :
    ∀ (st : RecState) (pos : Nat) (k : List Nat), tLookup st.table k ≠ none →
    tLookup (SharedState.recoverGo fi st pos content).table k ≠ none := by
  induction content with
  | nil => intro st pos k h; exact h
  | cons b bs ih =>
    intro st pos k h
    exact ih _ (pos + 1) k (recoverByte_keeps fi st pos b k h)

theorem cut_off_content (s : KState) (fi : FileIndex) (fe : FileEntry)
    (hget : bGet s.files fi = some fe) :
    ∃ fe', bGet (Kopper.cut_off_segment s).files fi = some fe'
      ∧ fe'.content = fe.content := by
  unfold Kopper.cut_off_segment
  by_cases hfi : (⟨s.current_file_index.base + 1, 0⟩ : FileIndex) = fi
  · rw [← hfi] at hget
    simp only [hget]
    refine ⟨⟨fe.content, 0, true⟩, ?_, rfl⟩
    show bGet (bInsert s.files ⟨s.current_file_index.base + 1, 0⟩ ⟨fe.content, 0, true⟩) fi = _
    rw [bGet_bInsert, if_pos hfi]
  · cases hni : bGet s.files ⟨s.current_file_index.base + 1, 0⟩ with
    | none =>
      simp only [hni]
      refine ⟨fe, ?_, rfl⟩
      show bGet (bInsert s.files ⟨s.current_file_index.base + 1, 0⟩ ⟨[], 0, true⟩) fi = _
      rw [bGet_bInsert, if_neg hfi]
      exact hget
    | some g =>
      simp only [hni]
      refine ⟨fe, ?_, rfl⟩
      show bGet (bInsert s.files ⟨s.current_file_index.base + 1, 0⟩ ⟨g.content, 0, true⟩) fi = _
      rw [bGet_bInsert, if_neg hfi]
      exact hget

theorem bump_content_keep (f : Files) (pfi : FileIndex) (fi : FileIndex) (fe : FileEntry)
    (hget : bGet f fi = some fe) :
    ∃ fe', bGet (bUpdate f pfi bumpUnused) fi = some fe' ∧ fe'.content = fe.content := by
  have hc := bUpdate_bump_content f pfi fi
  rw [hget] at hc
  cases hb : bGet (bUpdate f pfi bumpUnused) fi with
  | none => rw [hb] at hc; cases hc
  | some fe' =>
    rw [hb] at hc
    exact ⟨fe', rfl, by injection hc⟩

theorem writeIoFail_spec (segment_size : Nat) (s : KState) (k v : List Nat) (s' : KState)
    (hs : Kopper.writeIoFail segment_size s k v = some s') :
    s'.size = s.size
    ∧ (∀ fi fe, bGet s.files fi = some fe →
        ∃ fe', bGet s'.files fi = some fe' ∧ fe'.content = fe.content)
    ∧ tLookup s'.table k = some ⟨s'.current_file_index,
        (if k.length + v.length + 2 + s.offset > segment_size then 0 else s.offset)
          + k.length + 1, v.length⟩
    ∧ (¬ k.length + v.length + 2 + s.offset > segment_size →
        s'.offset = s.offset ∧ s'.current_file_index = s.current_file_index) := by
  unfold Kopper.writeIoFail at hs
  by_cases htrig : k.length + v.length + 2 + s.offset > segment_size
  · rw [if_pos htrig] at hs
    rw [if_pos htrig]
    cases hprev : tLookup (Kopper.cut_off_segment s).table k with
    | none =>
      simp only [hprev] at hs
      cases hfin : bGet (Kopper.cut_off_segment s).files
          (Kopper.cut_off_segment s).current_file_index with
      | none => simp only [hfin] at hs; cases hs
      | some fe3 =>
        simp only [hfin] at hs
        cases hs
        refine ⟨rfl, ?_, ?_, fun hneg => absurd htrig hneg⟩
        · intro fi fe hget
          exact cut_off_content s fi fe hget
        · show tLookup (tInsert (Kopper.cut_off_segment s).table k _) k = _
          rw [tLookup_tInsert, if_pos rfl, cut_off_current, cut_off_offset]
    | some pe =>
      simp only [hprev] at hs
      cases hpe : bGet (Kopper.cut_off_segment s).files pe.file_index with
      | none => simp only [hpe] at hs; cases hs
      | some pfe =>
        simp only [hpe] at hs
        cases hfin : bGet (bUpdate (Kopper.cut_off_segment s).files pe.file_index bumpUnused)
            (Kopper.cut_off_segment s).current_file_index with
        | none => simp only [hfin] at hs; cases hs
        | some fe3 =>
          simp only [hfin] at hs
          cases hs
          refine ⟨rfl, ?_, ?_, fun hneg => absurd htrig hneg⟩
          · intro fi fe hget
            obtain ⟨fe1, hfe1, hc1⟩ := cut_off_content s fi fe hget
            obtain ⟨fe2, hfe2, hc2⟩ := bump_content_keep _ pe.file_index fi fe1 hfe1
            exact ⟨fe2, hfe2, hc2.trans hc1⟩
          · show tLookup (tInsert (Kopper.cut_off_segment s).table k _) k = _
            rw [tLookup_tInsert, if_pos rfl, cut_off_current, cut_off_offset]
  · rw [if_neg htrig] at hs
    rw [if_neg htrig]
    cases hprev : tLookup s.table k with
    | none =>
      simp only [hprev] at hs
      cases hfin : bGet s.files s.current_file_index with
      | none => simp only [hfin] at hs; cases hs
      | some fe3 =>
        simp only [hfin] at hs
        cases hs
        refine ⟨rfl, ?_, ?_, fun _ => ⟨rfl, rfl⟩⟩
        · intro fi fe hget
          exact ⟨fe, hget, rfl⟩
        · show tLookup (tInsert s.table k _) k = _
          rw [tLookup_tInsert, if_pos rfl]
    | some pe =>
      simp only [hprev] at hs
      cases hpe : bGet s.files pe.file_index with
      | none => simp only [hpe] at hs; cases hs
      | some pfe =>
        simp only [hpe] at hs
        cases hfin : bGet (bUpdate s.files pe.file_index bumpUnused)
            s.current_file_index with
        | none => simp only [hfin] at hs; cases hs
        | some fe3 =>
          simp only [hfin] at hs
          cases hs
          refine ⟨rfl, ?_, ?_, fun _ => ⟨rfl, rfl⟩⟩
          · intro fi fe hget
            exact bump_content_keep _ pe.file_index fi fe hget
          · show tLookup (tInsert s.table k _) k = _
            rw [tLookup_tInsert, if_pos rfl]

theorem absStep_ne_none (M : List Nat → Option (List Nat)) (op : Op) (k : List Nat)
    (h : M k ≠ none) : absStep M op k ≠ none := by
  cases op with
  | write k' v =>
    show (if k = k' then some v else M k) ≠ none
    by_cases hkk : k = k'
    · rw [if_pos hkk]
      exact fun hh => by cases hh
    · rw [if_neg hkk]
      exact h
  | compact => exact h

/-- C1: Read-your-writes fails once a compaction pass has run (code bug).
Failing input, from a fresh store with segment size 6: write k:=a (fills
segment 0_0); write j:=b (rolls to segment 1_0); one compaction pass.  The
victim 0_0 holds the live record of k, which the compactor copies into the
output segment 0_1 and repoints k's index entry there — but the output
file is opened with only `.append(true).create(true)` and no
`.read(true)` (kopper.rs lines 247-252), a write-only handle, so the
subsequent `read_exact` through its clone fails with an I/O error:
`read k` returns an error (`none`) although every operation succeeded and
the last write to k was `a`, where the claim requires `read k = some a`.
-/
theorem C1_compaction_read_bug :
    lastWrite [Op.write [107] [97], Op.write [106] [98], Op.compact] [107] = some [97]
    ∧ ValidOps [Op.write [107] [97], Op.write [106] [98], Op.compact]
    ∧ (Kopper.exec 6 initState
        [Op.write [107] [97], Op.write [106] [98], Op.compact]).isSome = true
    ∧ (Kopper.exec 6 initState
        [Op.write [107] [97], Op.write [106] [98], Op.compact]).map
        (fun s => Kopper.read s [107]) = some none := by
  decide

/-- C5: Roll trigger and roll naming.  `write` rolls to a new segment
exactly when `offset + len(key) + len(value) + 2` exceeds the segment size
threshold (strictly); the roll sets the current segment id to
`(prev.base + 1, 0)` and resets the append cursor to `0`; otherwise no roll
happens and the record is appended to the current segment, whose index
entry records the current segment and cursor. -/
theorem C5_roll_trigger (segment_size : Nat) (s : KState) (k v : List Nat) :
    (k.length + v.length + 2 + s.offset > segment_size →
      Kopper.write segment_size s k v = Kopper.writeBody (Kopper.cut_off_segment s) k v
      ∧ (Kopper.cut_off_segment s).current_file_index = ⟨s.current_file_index.base + 1, 0⟩
      ∧ (Kopper.cut_off_segment s).offset = 0)
    ∧ (¬ k.length + v.length + 2 + s.offset > segment_size →
      Kopper.write segment_size s k v = Kopper.writeBody s k v
      ∧ ∀ s', Kopper.writeBody s k v = some s' →
          tLookup s'.table k
            = some ⟨s.current_file_index, s.offset + k.length + 1, v.length⟩
          ∧ (bGet s'.files s.current_file_index).map FileEntry.content
            = (bGet s.files s.current_file_index).map
                (fun fe => fe.content ++ (k ++ [0] ++ v ++ [0]))) := by
  constructor
  · intro htrig
    refine ⟨?_, cut_off_current s, cut_off_offset s⟩
    unfold Kopper.write
    rw [if_pos htrig]
  · intro htrig
    refine ⟨?_, ?_⟩
    · unfold Kopper.write
      rw [if_neg htrig]
    · intro s' hsb
      refine ⟨?_, writeBody_append s k v s' hsb⟩
      rw [writeBody_table s k v s' hsb, tLookup_tInsert, if_pos rfl]

theorem C5_roll_trigger_witness :
    Kopper.write 3 initState [107] [97]
        = Kopper.writeBody (Kopper.cut_off_segment initState) [107] [97]
    ∧ (Kopper.cut_off_segment initState).offset = 0
    ∧ Kopper.write 100 initState [107] [97] = Kopper.writeBody initState [107] [97]
    ∧ tLookup ((Kopper.writeBody initState [107] [97]).getD initState).table [107]
        = some ⟨⟨0, 0⟩, 2, 1⟩ := by
  have h1 := (C5_roll_trigger 3 initState [107] [97]).1 (by decide)
  have h2 := (C5_roll_trigger 100 initState [107] [97]).2 (by decide)
  have hb : Kopper.writeBody initState [107] [97]
      = some ((Kopper.writeBody initState [107] [97]).getD initState) := rfl
  exact ⟨h1.1, h1.2.2, h2.1, (h2.2 _ hb).1⟩

/-- C6: No dangling segment references.  At every state reachable from a
fresh store by valid writes and compaction passes, every segment referenced
by some index entry is present in the segment table (so a read's segment
lookup never hits an absent segment, even though compaction removes the
victim — its entries are repointed first). -/
theorem C6_no_dangling (segment_size : Nat) (ops : List Op) (s : KState)
    (hval : ValidOps ops)
    (hexec : Kopper.exec segment_size initState ops = some s) :
    ∀ k e, tLookup s.table k = some e → ∃ fe, bGet s.files e.file_index = some fe := by
  obtain ⟨R, hInv⟩ := exec_inv segment_size ops initState _ _ s init_inv hval hexec
  intro k e h
  obtain ⟨fe, v, hget, -, -, -⟩ := hInv.table_ok k e h
  exact ⟨fe, hget⟩

theorem C6_no_dangling_witness :
    (bGet ((Kopper.exec 6 initState
        [Op.write [107] [97], Op.write [107] [98], Op.compact]).getD initState).files
      ⟨1, 0⟩).isSome = true := by
  have hx : Kopper.exec 6 initState [Op.write [107] [97], Op.write [107] [98], Op.compact]
      = some ((Kopper.exec 6 initState
        [Op.write [107] [97], Op.write [107] [98], Op.compact]).getD initState) := rfl
  obtain ⟨fe, hfe⟩ := C6_no_dangling 6 _ _ (by decide) hx [107]
    ⟨⟨1, 0⟩, 2, 1⟩ (by decide)
  rw [show (⟨⟨1, 0⟩, 2, 1⟩ : TableEntry).file_index = ⟨1, 0⟩ from rfl] at hfe
  rw [hfe]
  rfl

/-- C9: Key presence invariant.  At every state reachable from a fresh
store by valid writes and compaction passes: every key of a complete
record in any open segment is present in the index; a (valid) write or
compaction step never removes a key from the index, nor does the recovery
scan; the compactor's unchecked index lookup succeeds for every record
parsed from any open segment (the record loop never hits the
`table.get(key).unwrap()` panic); and once a write of `K` has succeeded,
the index still holds `K`, so `read K` never takes the key-missing
(`KeyDoesNotExist`) error branch. -/
theorem C9_key_presence (segment_size : Nat) (ops : List Op) (s : KState)
    (hval : ValidOps ops)
    (hexec : Kopper.exec segment_size initState ops = some s) :
    (∀ fi fe, bGet s.files fi = some fe →
      ∀ x ∈ kvIter fe.content 0, tLookup s.table x.1 ≠ none)
    ∧ (∀ k op s', ValidOp op → tLookup s.table k ≠ none →
        Kopper.step segment_size s op = some s' → tLookup s'.table k ≠ none)
    ∧ (∀ (table : Table) (fi : FileIndex) (content : List Nat) (k : List Nat),
        tLookup table k ≠ none →
        tLookup (SharedState.recover_file table fi content).1 k ≠ none)
    ∧ (∀ fi fe (ci : FileIndex), bGet s.files fi = some fe →
        compactLoop fi ci fe.content s.table ≠ none)
    ∧ (∀ k v, lastWrite ops k = some v → tLookup s.table k ≠ none) := by
  obtain ⟨R, hInv⟩ := exec_inv segment_size ops initState _ _ s init_inv hval hexec
  have hpres : ∀ fi fe, bGet s.files fi = some fe →
      ∀ x ∈ kvIter fe.content 0, tLookup s.table x.1 ≠ none := by
    intro fi fe hget x hx
    obtain ⟨hcontent, hval'⟩ := hInv.files_ok fi fe hget
    rw [hcontent, kvIter_eq_tuples (R fi) 0 (SegOf (R fi)) [] hval' (by simp) (by simp)] at hx
    obtain ⟨v, hv⟩ := tuples_mem_keys _ _ x hx
    exact hInv.keys_ok fi fe hget (x.1, v) hv
  refine ⟨hpres, ?_, ?_, ?_, ?_⟩
  · intro k op s' hop hk hstep
    obtain ⟨R', hInv'⟩ := step_inv segment_size s R _ op s' hInv hop hstep
    intro hnone
    have h1 := hInv'.dom_ok k hnone
    cases ht : tLookup s.table k with
    | none => exact hk ht
    | some e =>
      obtain ⟨fe, v, -, hM, -, -⟩ := hInv.table_ok k e ht
      exact absStep_ne_none _ op k (fun hn => by rw [hM] at hn; cases hn) h1
  · intro table fi content k h
    exact recoverGo_keeps fi content _ 0 k h
  · intro fi fe ci hget
    exact compactLoop_ne_none fi ci fe.content s.table (hpres fi fe hget)
  · intro k v hlw hnone
    have h1 := hInv.dom_ok k hnone
    simp only [absRun_eq, hlw] at h1
    cases h1

theorem C9_key_presence_witness :
    compactLoop ⟨0, 0⟩ ⟨0, 1⟩ [107, 0, 97, 0]
      ((Kopper.exec 100 initState [Op.write [107] [97]]).getD initState).table ≠ none := by
  have hx : Kopper.exec 100 initState [Op.write [107] [97]]
      = some ((Kopper.exec 100 initState [Op.write [107] [97]]).getD initState) := rfl
  exact (C9_key_presence 100 _ _ (by decide) hx).2.2.2.1 ⟨0, 0⟩ ⟨[107, 0, 97, 0], 0, true⟩
    ⟨0, 1⟩ (by decide)

/-- C10: KeyValueIterator record shape.  On a buffer that is a
concatenation of complete records `key ++ [0] ++ value ++ [0]` with
nonempty, zero-free keys and values, followed by a trailing incomplete
record (at most one terminator: it ends mid-key or mid-value, so it yields
no tuple), the iterator yields exactly one tuple per complete record, in
order; per `tuples`, each tuple carries the key, the entire raw record
bytes `key ++ [0] ++ value ++ [0]` (length `len key + len value + 2`), and
the byte offset of the first value byte from the start of the buffer. -/
theorem C10_iterator_shape (rs : List (List Nat × List Nat)) (t : List Nat)
    (hval : ∀ q ∈ rs, ValidKV q.1 q.2) (ht : t.count 0 ≤ 1) :
    kvIter (SegOf rs ++ t) 0 = tuples rs 0
    ∧ (kvIter (SegOf rs ++ t) 0).length = rs.length := by
  have h := kvIter_eq_tuples rs 0 (SegOf rs ++ t) t hval (by simp) ht
  exact ⟨h, by rw [h, tuples_length]⟩

theorem C10_iterator_shape_witness :
    kvIter (SegOf [([65, 66], [67, 68]), ([69, 70], [71, 72])] ++ [73]) 0
      = tuples [([65, 66], [67, 68]), ([69, 70], [71, 72])] 0 :=
  (C10_iterator_shape [([65, 66], [67, 68]), ([69, 70], [71, 72])] [73]
    (by decide) (by decide)).1

/-- C8: Post-recovery fixup.  After `create` on an empty directory the
initial segment `(0,0)` is created with cursor `0`; on a non-empty
directory, `current_file_index` is the minimum SegmentId among the
recovered files, the append cursor equals the byte length of that minimum
segment's file, and a subsequent non-rolling write installs its index
entry in that segment at that cursor. -/
theorem C8_post_recovery (listing : List (FileIndex × List Nat)) :
    (listing = [] →
      (SharedState.create listing).files = [(⟨0, 0⟩, ⟨[], 0, true⟩)]
      ∧ (SharedState.create listing).current_file_index = ⟨0, 0⟩
      ∧ (SharedState.create listing).offset = 0)
    ∧ (listing ≠ [] →
      (SharedState.create listing).current_file_index ∈ listing.map Prod.fst
      ∧ (∀ fi ∈ listing.map Prod.fst,
          (SharedState.create listing).current_file_index = fi
          ∨ fiLt (SharedState.create listing).current_file_index fi)
      ∧ ∃ fe, bGet (SharedState.create listing).files
            (SharedState.create listing).current_file_index = some fe
          ∧ (SharedState.create listing).offset = fe.content.length)
    ∧ (∀ (segment_size : Nat) (k v : List Nat) (s' : KState),
        ¬ k.length + v.length + 2 + (SharedState.create listing).offset > segment_size →
        Kopper.write segment_size (SharedState.create listing) k v = some s' →
        tLookup s'.table k = some ⟨(SharedState.create listing).current_file_index,
          (SharedState.create listing).offset + k.length + 1, v.length⟩) := by
  refine ⟨?_, ?_, ?_⟩
  · intro h
    subst h
    exact ⟨rfl, rfl, rfl⟩
  · intro hne
    have hff : (listing.foldl SharedState.createStep ⟨[], [], 0, ⟨0, 0⟩, 0⟩).files
        = listing.foldl (fun f p => bInsert f p.1 ⟨p.2, 0, true⟩) [] :=
      foldl_createStep_files listing _
    have hsorted := foldl_bInsert_sorted listing [] List.Pairwise.nil
    have hnn : listing.foldl (fun f p => bInsert f p.1 ⟨p.2, 0, true⟩) [] ≠ [] :=
      foldl_bInsert_ne_nil listing [] (Or.inr hne)
    rcases hc : listing.foldl (fun f p => bInsert f p.1 ⟨p.2, 0, true⟩) [] with - | ⟨⟨fi0, fe0⟩, t⟩
    · exact absurd hc hnn
    · have hceq := create_eq listing fi0 fe0 t (by rw [hff, hc])
      rw [hceq]
      rw [hc] at hsorted
      refine ⟨?_, ?_, ?_⟩
      · show fi0 ∈ listing.map Prod.fst
        have hsome : bGet (listing.foldl (fun f p => bInsert f p.1 ⟨p.2, 0, true⟩) []) fi0 ≠ none := by
          rw [hc, bGet_cons, if_pos rfl]
          exact fun hh => by cases hh
        rcases foldl_bInsert_keys_sub listing [] fi0 hsome with h' | h'
        · exact h'
        · exact absurd rfl h'
      · intro fi hfi
        have hmem : bGet (listing.foldl (fun f p => bInsert f p.1 ⟨p.2, 0, true⟩) []) fi ≠ none :=
          foldl_bInsert_mem listing [] fi hfi
        rw [hc, bGet_cons] at hmem
        by_cases hp : fi0 = fi
        · exact Or.inl hp
        · rw [if_neg hp] at hmem
          cases hbt : bGet t fi with
          | none => exact absurd hbt hmem
          | some g =>
            have hmemt := bGet_some_mem t fi g hbt
            rcases List.pairwise_cons.mp hsorted with ⟨hhead, -⟩
            exact Or.inr (hhead (fi, g) hmemt)
      · refine ⟨fe0, ?_, rfl⟩
        show bGet (listing.foldl SharedState.createStep ⟨[], [], 0, ⟨0, 0⟩, 0⟩).files fi0
          = some fe0
        rw [hff, hc, bGet_cons, if_pos rfl]
  · intro segment_size k v s' htrig hw
    unfold Kopper.write at hw
    rw [if_neg htrig] at hw
    rw [writeBody_table _ k v s' hw, tLookup_tInsert, if_pos rfl]

theorem C8_post_recovery_witness :
    ((SharedState.create []).files = [(⟨0, 0⟩, ⟨[], 0, true⟩)]
      ∧ (SharedState.create []).current_file_index = ⟨0, 0⟩
      ∧ (SharedState.create []).offset = 0)
    ∧ tLookup ((Kopper.write 100
          (SharedState.create [(⟨1, 0⟩, [107, 0, 98, 0]), (⟨0, 0⟩, [107, 0, 97, 0])])
          [120] [121]).getD initState).table [120]
        = some ⟨⟨0, 0⟩, 6, 1⟩ := by
  refine ⟨(C8_post_recovery []).1 rfl, ?_⟩
  have hw : Kopper.write 100
      (SharedState.create [(⟨1, 0⟩, [107, 0, 98, 0]), (⟨0, 0⟩, [107, 0, 97, 0])]) [120] [121]
      = some ((Kopper.write 100
          (SharedState.create [(⟨1, 0⟩, [107, 0, 98, 0]), (⟨0, 0⟩, [107, 0, 97, 0])])
          [120] [121]).getD initState) := rfl
  exact (C8_post_recovery [(⟨1, 0⟩, [107, 0, 98, 0]), (⟨0, 0⟩, [107, 0, 97, 0])]).2.2
    100 [120] [121] _ (by decide) hw

/-- C2: Durability across restart — refuted on the code.  `SharedState::create`
iterates `fs::read_dir` without sorting, so recovery processes segments in
whatever order the directory enumeration yields (modelled as the listing
order).  When the enumeration yields segment `1_0` (key `k`, value `b`)
before `0_0` (key `k`, value `a`), recovery leaves the index pointing at
the stale value `a`; the ascending order required by the claim gives `b`. -/
theorem C2_recovery_order_bug :
    Kopper.read (SharedState.create
        [(⟨1, 0⟩, [107, 0, 98, 0]), (⟨0, 0⟩, [107, 0, 97, 0])]) [107] = some [97]
    ∧ Kopper.read (SharedState.create
        [(⟨0, 0⟩, [107, 0, 97, 0]), (⟨1, 0⟩, [107, 0, 98, 0])]) [107] = some [98] := by
  exact ⟨rfl, rfl⟩

/-- C7: dead_count lower bound — refuted on recovered states.  Recovering a
directory whose single segment `0_0` holds two records for the same key
(`SegOf [([107],[97]),([107],[98])]`) yields `unused_count = 0` for that
segment (`SharedState::create` inserts every `FileEntry` with
`unused_count: 0`; the source marks the gap with
`TODO: update unused counters for all files`), although one record of the
segment is superseded. -/
theorem C7_dead_count_bug :
    SegOf [([107], [97]), ([107], [98])] = [107, 0, 97, 0, 107, 0, 98, 0]
    ∧ supersededCount [([107], [97]), ([107], [98])] = 1
    ∧ (bGet (SharedState.create
        [(⟨0, 0⟩, [107, 0, 97, 0, 107, 0, 98, 0])]).files ⟨0, 0⟩).map
        FileEntry.unused_count = some 0 := by
  exact ⟨rfl, rfl, rfl⟩

/-- C3 counterexample: an I/O failure of the disk append inside `write`
does not leave the in-memory state unchanged — the index entry for the key
was already replaced before the disk write.  Writing `k ↦ 97` successfully
and then attempting `k ↦ 98` with a failing append changes the index entry
for `k`. -/
theorem C3_counterexample :
    (Kopper.writeIoFail 100 ((Kopper.write 100 initState [107] [97]).getD initState)
        [107] [98]).map (fun s => tLookup s.table [107])
      ≠ some (tLookup ((Kopper.write 100 initState [107] [97]).getD initState).table
        [107]) := by
  decide

/-- C3 (amended): if the disk append inside `write` fails with an I/O
error, the error is propagated and the total size, every file's content,
and (when no roll was triggered) the append cursor and current segment are
unchanged — but the index entry for the key (and the previous entry's
segment dead-count) have already been updated, because the source mutates
the in-memory index before the disk write (`// 1. Save in in-memory map`,
`// 2. Write to disk`). -/
theorem C3_io_error_partial_state (segment_size : Nat) (s : KState) (k v : List Nat)
    (s' : KState) (hs : Kopper.writeIoFail segment_size s k v = some s') :
    s'.size = s.size
    ∧ (∀ fi fe, bGet s.files fi = some fe →
        ∃ fe', bGet s'.files fi = some fe' ∧ fe'.content = fe.content)
    ∧ tLookup s'.table k = some ⟨s'.current_file_index,
        (if k.length + v.length + 2 + s.offset > segment_size then 0 else s.offset)
          + k.length + 1, v.length⟩
    ∧ (¬ k.length + v.length + 2 + s.offset > segment_size →
        s'.offset = s.offset ∧ s'.current_file_index = s.current_file_index) :=
  writeIoFail_spec segment_size s k v s' hs

theorem C3_io_error_partial_state_witness :
    ((Kopper.writeIoFail 100 ((Kopper.write 100 initState [107] [97]).getD initState)
        [107] [98]).getD initState).size
      = ((Kopper.write 100 initState [107] [97]).getD initState).size
    ∧ tLookup ((Kopper.writeIoFail 100
          ((Kopper.write 100 initState [107] [97]).getD initState)
          [107] [98]).getD initState).table [107]
        = some ⟨⟨0, 0⟩, 6, 1⟩ := by
  have hx : Kopper.writeIoFail 100 ((Kopper.write 100 initState [107] [97]).getD initState)
      [107] [98]
      = some ((Kopper.writeIoFail 100
          ((Kopper.write 100 initState [107] [97]).getD initState)
          [107] [98]).getD initState) := rfl
  have h := C3_io_error_partial_state 100 _ [107] [98] _ hx
  exact ⟨h.1, h.2.2.1⟩

/-- C4 counterexample: `write` performs no input validation at all — a key
containing a zero byte is accepted (no `InvalidRecord` error exists in the
code: `KopperError` has only `InternalError` and `KeyDoesNotExist`), and
the malformed record bytes are appended to the segment, changing the
store. -/
theorem C4_counterexample :
    Kopper.write 100 initState [107, 0] [118] ≠ none
    ∧ (Kopper.write 100 initState [107, 0] [118]).map
        (fun s => (bGet s.files ⟨0, 0⟩).map FileEntry.content)
      = some (some [107, 0, 0, 118, 0]) := by
  exact ⟨by decide, by decide⟩

/-- C4 (amended): `write` applies no validation to its inputs: for any key
and value whatsoever — including empty ones and ones containing zero
bytes — a write into a fresh store succeeds, appends
`key ++ [0] ++ value ++ [0]` to segment `(0,0)` and installs the index
entry, rather than returning `InvalidRecord` and leaving the store
unchanged. -/
theorem C4_no_validation (k v : List Nat) (h : k.length + v.length + 2 ≤ 100) :
    ∃ s', Kopper.write 100 initState k v = some s'
      ∧ (bGet s'.files ⟨0, 0⟩).map FileEntry.content = some (k ++ [0] ++ v ++ [0])
      ∧ tLookup s'.table k = some ⟨⟨0, 0⟩, k.length + 1, v.length⟩ := by
  have htrig : ¬ k.length + v.length + 2 + initState.offset > 100 := by
    show ¬ k.length + v.length + 2 + 0 > 100
    omega
  refine ⟨{ table := tInsert [] k ⟨⟨0, 0⟩, 0 + k.length + 1, v.length⟩,
            files := bUpdate [(⟨0, 0⟩, ⟨[], 0, true⟩)] ⟨0, 0⟩
              (appendContent (k ++ [0] ++ v ++ [0])),
            offset := 0 + (k ++ [0] ++ v ++ [0]).length,
            current_file_index := ⟨0, 0⟩,
            size := 0 + (k ++ [0] ++ v ++ [0]).length }, ?_, ?_, ?_⟩
  · unfold Kopper.write
    rw [if_neg htrig]
    rfl
  · show (bGet (bUpdate [(⟨0, 0⟩, ⟨[], 0, true⟩)] ⟨0, 0⟩
        (appendContent (k ++ [0] ++ v ++ [0]))) ⟨0, 0⟩).map FileEntry.content = _
    rw [bGet_bUpdate, if_pos rfl, bGet_cons, if_pos rfl]
    rfl
  · show tLookup (tInsert [] k ⟨⟨0, 0⟩, 0 + k.length + 1, v.length⟩) k = _
    rw [tLookup_tInsert, if_pos rfl, Nat.zero_add]

theorem C4_no_validation_witness :
    (Kopper.write 100 initState [107, 0] [118]).map (fun s => tLookup s.table [107, 0])
      = some (some ⟨⟨0, 0⟩, 3, 1⟩) := by
  obtain ⟨s', h1, -, h3⟩ := C4_no_validation [107, 0] [118] (by decide)
  rw [h1]
  show some (tLookup s'.table [107, 0]) = _
  rw [h3]
  rfl
